import Mathlib

/-!
Verification of the autonomous-mode core of the teddy-codes repository
(src/core/modes/autonomous.ts) against its natural-language specification.

The TypeScript code is shallowly embedded: JS strings become lists of
characters (`Str`), the workspace filesystem becomes an association list
from paths to contents, and each handler/parser function of the source is
translated into an executable Lean definition carrying the same name.
LLM completions and the IDE are external collaborators; a handler that
consumes a completion takes the drained completion text as an explicit
parameter, and its filesystem effect is returned as a new filesystem value
paired with the list of progress messages the generator yields.  Prompt
strings only feed the external model and are not modelled.

Every regular expression of the source is transcribed as a hand-rolled
matcher whose doc comment quotes the original pattern; JS semantics
(leftmost match, greedy quantifiers with the backtracking the pattern
actually exercises, case-insensitivity flags, falsy-value checks) are
reproduced case by case.
-/

namespace Teddy

/-! ### String embedding and JS string primitives -/

/-- Embedding of a JavaScript string: a list of characters. -/
abbrev Str := List Char

/-- Coerce a Lean string literal into the embedding. -/
def str (s : String) : Str := s.data

/-- JS regex whitespace class (ASCII part, which is all the source feeds it). -/
def isWS (c : Char) : Bool :=
  c = ' ' || c = '\t' || c = '\n' || c = '\r' || c = '\x0b' || c = '\x0c'

/-- JS regex word class: [A-Za-z0-9_]. -/
def isWordChar (c : Char) : Bool :=
  c.isAlpha || c.isDigit || c = '_'

/-- Lowercase a string (ASCII, which covers every comparison the source makes). -/
def toLowerStr (s : Str) : Str := s.map Char.toLower

/-- JS String.prototype.trim: strip whitespace from both ends. -/
def trimStr (s : Str) : Str :=
  ((s.dropWhile isWS).reverse.dropWhile isWS).reverse

/-- JS String.prototype.trimEnd. -/
def trimEnd (s : Str) : Str :=
  (s.reverse.dropWhile isWS).reverse

/-- Whether pat is a prefix of s (Boolean, character by character). -/
def isPrefixOfB : Str → Str → Bool
  | [], _ => true
  | _ :: _, [] => false
  | a :: as, b :: bs => a = b && isPrefixOfB as bs

/-- Case-insensitive prefix test (both sides lowered). -/
def isPrefixCI (pat s : Str) : Bool :=
  isPrefixOfB (toLowerStr pat) (toLowerStr (s.take pat.length))

/-- Helper for substring search: does sub occur in s at any position? -/
def includesAux (sub : Str) : Str → Bool
  | [] => decide (sub = [])
  | c :: rest => isPrefixOfB sub (c :: rest) || includesAux sub rest

/-- JS String.prototype.includes. -/
def includesStr (s sub : Str) : Bool := includesAux sub s

/-- Helper for indexOf: leftmost occurrence of sub in s, as an offset. -/
def indexOfAux (sub : Str) : Str → Option Nat
  | [] => if sub = [] then some 0 else none
  | c :: rest =>
    if isPrefixOfB sub (c :: rest) then some 0
    else (indexOfAux sub rest).map (· + 1)

/-- JS String.prototype.indexOf (returning none for -1). -/
def indexOfStr (s sub : Str) : Option Nat := indexOfAux sub s

/-- JS String.prototype.indexOf(char, fromIndex): leftmost index of c at or
after position i. -/
def indexOfCharFrom (s : Str) (c : Char) (i : Nat) : Option Nat :=
  (indexOfAux [c] (s.drop i)).map (· + i)

/-- JS String.prototype.startsWith. -/
def startsWith (s pat : Str) : Bool := isPrefixOfB pat s

/-- JS String.prototype.endsWith. -/
def endsWith (s pat : Str) : Bool := isPrefixOfB pat.reverse s.reverse

/-- JS String.prototype.split("\n"). -/
def splitOnNl : Str → List Str
  | [] => [[]]
  | c :: rest =>
    match splitOnNl rest with
    | [] => [[]]
    | l :: ls => if c = '\n' then [] :: l :: ls else (c :: l) :: ls

/-- JS Array.prototype.join("\n"). -/
def joinNl : List Str → Str
  | [] => []
  | [l] => l
  | l :: ls => l ++ '\n' :: joinNl ls

/-- JS String.prototype.split(sep) for a single-character separator. -/
def splitOnChar (sep : Char) : Str → List Str
  | [] => [[]]
  | c :: rest =>
    match splitOnChar sep rest with
    | [] => [[]]
    | l :: ls => if c = sep then [] :: l :: ls else (c :: l) :: ls

/-- Length through and including the first occurrence of c: the regex
fragment [^c]*c consumes exactly this many characters, none if c is absent. -/
def seekCharLen (c : Char) (s : Str) : Option Nat :=
  let k := (s.takeWhile (fun x => x != c)).length
  if k < s.length then some (k + 1) else none

/-- Numeric value of a digit string (JS parseInt on a \d+ capture). -/
def natOfDigits (ds : Str) : Nat :=
  ds.foldl (fun acc c => acc * 10 + (c.toNat - '0'.toNat)) 0

/-! ### Workspace filesystem and plan steps -/

/-- The workspace filesystem: an association list from absolute paths to
file contents.  ide.readFile throws for a missing path (modelled as none);
ide.writeFile overwrites or creates; ide.openFile is an editor-visibility
hint with no filesystem effect and is not modelled. -/
abbrev FS := List (Str × Str)

/-- ide.readFile. -/
def fsRead (fs : FS) (path : Str) : Option Str :=
  match fs with
  | [] => none
  | (p, c) :: rest => if p = path then some c else fsRead rest path

/-- ide.writeFile. -/
def fsWrite (fs : FS) (path content : Str) : FS :=
  match fs with
  | [] => [(path, content)]
  | (p, c) :: rest =>
    if p = path then (p, content) :: rest else (p, c) :: fsWrite rest path content

/-- The PlanStep.type union. -/
inductive StepType
  | create_file
  | edit_file
  | run_command
  | analyze
  | insert_code
deriving DecidableEq, Repr

/-- The PlanStep interface of autonomous.ts (the unused content field is
omitted; absent optional fields are none). -/
structure PlanStep where
  id : Nat
  description : Str
  type : StepType
  target : Option Str := none
  codeBlock : Option Str := none
deriving DecidableEq, Repr

/-! ### cleanCodeContent and the create/edit handlers -/

/-- cleanCodeContent from autonomous.ts: trim, drop a leading markdown fence
line when present, drop a trailing fence when present. -/
def cleanCodeContent (content : Str) : Str :=
  let cleaned := trimStr content
  let cleaned2 :=
    if startsWith cleaned (str "```") then
      match indexOfStr cleaned (str "\n") with
      | some firstNewline => cleaned.drop (firstNewline + 1)
      | none => cleaned
    else cleaned
  if endsWith cleaned2 (str "```") then
    trimEnd (cleaned2.take (cleaned2.length - 3))
  else cleaned2

/-- handleCreateFile.  llmOutput is the drained completion of
model.streamComplete on the generation prompt.  The handler builds the
prompt, cleans the completion and writes the file; it performs no
validation of the target path. -/
def handleCreateFile (step : PlanStep) (llmOutput : Str) (rootDir : Str)
    (fs : FS) : FS × List Str :=
  match step.target with
  | none => (fs, [str "⚠️ No target file specified"])
  | some target =>
    if target = [] then (fs, [str "⚠️ No target file specified"])
    else
      let content := cleanCodeContent llmOutput
      let filePath := rootDir ++ '/' :: target
      (fsWrite fs filePath content, [str "✅ Created: " ++ target])

/-- handleEditFile.  llmOutput is the drained completion for the edit
prompt (refactor-style or windowed; the prompt choice does not change the
filesystem behaviour modelled here). -/
def handleEditFile (step : PlanStep) (llmOutput : Str) (rootDir : Str)
    (fs : FS) : FS × List Str :=
  match step.target with
  | none => (fs, [str "⚠️ No target file specified"])
  | some target =>
    if target = [] then (fs, [str "⚠️ No target file specified"])
    else if includesStr target (str " - ") || target.length > 200 then
      (fs, [str "⚠️ Invalid target path detected",
            str "This appears to be a malformed path. Skipping step."])
    else
      let filePath := rootDir ++ '/' :: target
      match fsRead fs filePath with
      | none =>
        match step.codeBlock with
        | some codeBlock =>
          (fsWrite fs filePath codeBlock, [str "✅ Created: " ++ target])
        | none => (fs, [str "⚠️ File not found: " ++ target])
      | some _ =>
        let newContent := cleanCodeContent llmOutput
        if newContent.length < 10 then
          (fs, [str "⚠️ Generated content too short, keeping original file"])
        else
          (fsWrite fs filePath newContent, [str "✅ Modified: " ++ target])

/-! ### Description-regex matchers of the insertion locator -/

/-- Tail common to the methodMatch and afterMatch description regexes after
a keyword alternative: \s+(?:the\s+)?[`']?(\w+).  The optional quote cannot
backtrack usefully (a quote character is never a word character), but the
optional the-group can: when the word after "the " fails to materialise,
the regex falls back to capturing "the" itself. -/
def nameAfterOptQuote (s : Str) : Option Str :=
  let s2 :=
    match s with
    | c :: cs => if c = '`' || c = '\'' then cs else c :: cs
    | [] => []
  let name := s2.takeWhile isWordChar
  if name = [] then none else some name

/-- The fragment \s+(?:the\s+)?[`']?(\w+) at the head of s. -/
def matchWsTheName (s : Str) : Option Str :=
  let w := s.takeWhile isWS
  if w = [] then none
  else
    let rest := s.drop w.length
    let withThe : Option Str :=
      if isPrefixOfB (str "the") rest then
        let r2 := rest.drop 3
        let w2 := r2.takeWhile isWS
        if w2 = [] then none else nameAfterOptQuote (r2.drop w2.length)
      else none
    match withThe with
    | some n => some n
    | none => nameAfterOptQuote rest

/-- Keyword alternation at one position: JS tries the alternatives in source
order, continuing into \s+(?:the\s+)?[`']?(\w+), and backtracks to the next
alternative when the continuation fails. -/
def kwNameAt (alts : List Str) (s : Str) : Option Str :=
  match alts with
  | [] => none
  | kw :: more =>
    if isPrefixOfB kw s then
      match matchWsTheName (s.drop kw.length) with
      | some n => some n
      | none => kwNameAt more s
    else kwNameAt more s

/-- Leftmost match of the keyword-name regex over the whole description
(the description was lowercased by the caller, so the i flag and lowercase
alternatives coincide). -/
def kwNameSearch (alts : List Str) : Str → Option Str
  | [] => none
  | c :: cs =>
    match kwNameAt alts (c :: cs) with
    | some n => some n
    | none => kwNameSearch alts cs

/-- The methodMatch regex
(?:in|into|to|inside|within)\s+(?:the\s+)?[`']?(\w+)(?:\s*\(|\s+method|\s+function)?
applied to the lowercased description; the optional tail group never
affects the capture. -/
def methodMatchSearch (desc : Str) : Option Str :=
  kwNameSearch [str "in", str "into", str "to", str "inside", str "within"] desc

/-- The afterMatch regex (?:after|following)\s+(?:the\s+)?[`']?(\w+). -/
def afterMatchSearch (desc : Str) : Option Str :=
  kwNameSearch [str "after", str "following"] desc

/-- The lineMatch regex (?:line|around line)\s*(\d+) at one position. -/
def lineNumAt (s : Str) : Option Nat :=
  let tryTail := fun (t : Str) =>
    let t2 := t.dropWhile isWS
    let ds := t2.takeWhile Char.isDigit
    if ds = [] then none else some (natOfDigits ds)
  match (if isPrefixOfB (str "line") s then tryTail (s.drop 4) else none) with
  | some n => some n
  | none =>
    if isPrefixOfB (str "around line") s then tryTail (s.drop 11) else none

/-- Leftmost match of the lineMatch regex over the description. -/
def lineNumSearch : Str → Option Nat
  | [] => none
  | c :: cs =>
    match lineNumAt (c :: cs) with
    | some n => some n
    | none => lineNumSearch cs

/-- insertIdx = Math.min(lineNum - 1, lines.length); "line 0" yields -1 in
JS, and Array.prototype.splice maps a negative start to max(length+start,0). -/
def spliceIndex (lineNum len : Nat) : Nat :=
  if lineNum = 0 then len - 1 else min (lineNum - 1) len

/-! ### Content-pattern matchers of the insertion locator -/

/-- Tail \s+NAME\s*\([^)]*\)[^{]*\{ of the first method pattern (after the
keyword), case-insensitively, returning the consumed length. -/
def methodPat1Tail (name r1 : Str) : Option Nat :=
  let ws := r1.takeWhile isWS
  if ws = [] then none
  else
    let r2 := r1.drop ws.length
    if isPrefixCI name r2 then
      let r3 := r2.drop name.length
      let ws2 := r3.takeWhile isWS
      let r4 := r3.drop ws2.length
      match r4 with
      | '(' :: r5 =>
        match seekCharLen ')' r5 with
        | some k1 =>
          match seekCharLen '{' (r5.drop k1) with
          | some k2 =>
            some (ws.length + name.length + ws2.length + 1 + k1 + k2)
          | none => none
        | none => none
      | _ => none
    else none

/-- Keyword alternation (?:fn|func|fun|def|function) of the first method
pattern, tried in source order with backtracking into the tail. -/
def methodPat1Kw (name : Str) (alts : List Str) (s : Str) : Option Nat :=
  match alts with
  | [] => none
  | kw :: more =>
    if isPrefixCI kw s then
      match methodPat1Tail name (s.drop kw.length) with
      | some n => some (kw.length + n)
      | none => methodPat1Kw name more s
    else methodPat1Kw name more s

/-- Pattern 1 of the methodMatch branch:
(?:fn|func|fun|def|function)\s+NAME\s*\([^)]*\)[^{]*\{ with the i flag,
at one position (returning the match length). -/
def methodPat1At (name s : Str) : Option Nat :=
  methodPat1Kw name
    [str "fn", str "func", str "fun", str "def", str "function"] s

/-- Pattern 2 of the methodMatch branch:
NAME\s*\([^)]*\)\s*(?:->\s*[^{]+)?\s*\{ with the i flag, at one position.
With backtracking this accepts either an immediate brace after the closing
parenthesis and whitespace, or an arrow followed by at least one non-brace
character and then the next brace. -/
def methodPat2At (name s : Str) : Option Nat :=
  if isPrefixCI name s then
    let r1 := s.drop name.length
    let ws := r1.takeWhile isWS
    let r2 := r1.drop ws.length
    match r2 with
    | '(' :: r3 =>
      match seekCharLen ')' r3 with
      | some k1 =>
        let r4 := r3.drop k1
        let ws2 := r4.takeWhile isWS
        let r5 := r4.drop ws2.length
        match r5 with
        | '{' :: _ => some (name.length + ws.length + 1 + k1 + ws2.length + 1)
        | '-' :: '>' :: r6 =>
          match seekCharLen '{' r6 with
          | some k2 =>
            if 2 ≤ k2 then
              some (name.length + ws.length + 1 + k1 + ws2.length + 2 + k2)
            else none
          | none => none
        | _ => none
      | none => none
    | _ => none
  else none

/-- Pattern 3 of the methodMatch branch:
fun\s+NAME\s*\([^)]*\)\s*\w*:\s*\w+\s*\{ with the i flag, at one position. -/
def methodPat3At (name s : Str) : Option Nat :=
  if isPrefixCI (str "fun") s then
    let r1 := s.drop 3
    let ws := r1.takeWhile isWS
    if ws = [] then none
    else
      let r2 := r1.drop ws.length
      if isPrefixCI name r2 then
        let r3 := r2.drop name.length
        let ws2 := r3.takeWhile isWS
        let r4 := r3.drop ws2.length
        match r4 with
        | '(' :: r5 =>
          match seekCharLen ')' r5 with
          | some k1 =>
            let r6 := r5.drop k1
            let ws3 := r6.takeWhile isWS
            let r7 := r6.drop ws3.length
            let w1 := r7.takeWhile isWordChar
            let r8 := r7.drop w1.length
            match r8 with
            | ':' :: r9 =>
              let ws4 := r9.takeWhile isWS
              let r10 := r9.drop ws4.length
              let w2 := r10.takeWhile isWordChar
              if w2 = [] then none
              else
                let r11 := r10.drop w2.length
                let ws5 := r11.takeWhile isWS
                match r11.drop ws5.length with
                | '{' :: _ =>
                  some (3 + ws.length + name.length + ws2.length + 1 + k1 +
                    ws3.length + w1.length + 1 + ws4.length + w2.length +
                    ws5.length + 1)
                | _ => none
            | _ => none
          | none => none
        | _ => none
      else none
  else none

/-- Leftmost match of a one-position matcher over the file content,
returning (index, length) like match.index and match[0].length. -/
def patSearchAux (f : Str → Option Nat) : Str → Nat → Option (Nat × Nat)
  | [], _ => none
  | c :: cs, pos =>
    match f (c :: cs) with
    | some len => some (pos, len)
    | none => patSearchAux f cs (pos + 1)

/-- Leftmost match from position 0. -/
def patSearch (f : Str → Option Nat) (s : Str) : Option (Nat × Nat) :=
  patSearchAux f s 0

/-! ### Import-run matcher and brace scan -/

/-- The import-line keyword alternatives (case-sensitive: no i flag). -/
def importKeywords : List Str :=
  [str "import", str "use", str "from", str "require", str "#include"]

/-- One repetition ((?:import|use|from|require|#include).*\n) at the head
of s: the line must start with a keyword and be newline-terminated; returns
the length of the line including its newline. -/
def importLineLen (s : Str) : Option Nat :=
  if importKeywords.any (fun kw => isPrefixOfB kw s) then
    let body := s.takeWhile (fun c => c != '\n')
    if body.length < s.length then some (body.length + 1) else none
  else none

/-- Greedy + repetition of import lines from the head of s; fuel bounds the
recursion (each matched line consumes at least one character). -/
def importRunLenAux : Nat → Str → Nat
  | 0, _ => 0
  | fuel + 1, s =>
    match importLineLen s with
    | none => 0
    | some n => n + importRunLenAux fuel (s.drop n)

/-- Greedy length of the import run at the head of s. -/
def importRunLen (s : Str) : Nat := importRunLenAux s.length s

/-- Leftmost multiline-anchored match of /^((?:import|use|from|require|#include).*\n)+/m:
walk the line starts of s in order and return (index, greedy run length) at
the first line start carrying a nonempty run. -/
def findImportRunAux : Nat → Str → Nat → Option (Nat × Nat)
  | 0, _, _ => none
  | fuel + 1, s, pos =>
    let n := importRunLen s
    if 0 < n then some (pos, n)
    else
      match seekCharLen '\n' s with
      | some k => findImportRunAux fuel (s.drop k) (pos + k)
      | none => none

/-- Leftmost import-run match over the whole file. -/
def findImportRun (s : Str) : Option (Nat × Nat) := findImportRunAux s.length s 0

/-- Executable check that no cut position of s starts a newline-terminated
line of import style — the condition under which the import-run regex cannot
match anywhere (it holds in particular for a file with no import lines). -/
def hasNoImportLine (s : Str) : Bool :=
  (List.range (s.length + 1)).all
    (fun i => (importLineLen (s.drop i)).isNone)

/-- The balanced-brace scan of the afterMatch branch, applied to the suffix
of the file starting at the opening brace: braceCount is updated per
character and the scan stops one past the character that brings it to zero;
none when the scan exhausts the file (in which case the code keeps endPos at
startBrace). -/
def braceScanAux : Str → Nat → Int → Option Nat
  | [], _, _ => none
  | c :: rest, i, count =>
    let count' := if c = '{' then count + 1
      else if c = '}' then count - 1 else count
    if count' = 0 then some (i + 1) else braceScanAux rest (i + 1) count'

/-- Net brace balance of a string: occurrences of the opening brace minus
occurrences of the closing brace (the brace-counter of the specification). -/
def netBrace (s : Str) : Int := (s.count '{' : Int) - (s.count '}' : Int)

/-- The first line of a file that is not the empty string. -/
def firstNonEmptyLine (s : Str) : Option Str :=
  (splitOnNl s).find? (fun l => l != [])

/-! ### The insertion locator and handleInsertCode -/

/-- The existing-file branch of handleInsertCode: given the existing file
content, the lowercased description and the code block, produce
(newContent, insertionMethod). -/
def insertCodeIntoContent (existingContent desc codeBlock : Str) :
    Str × Str :=
  if includesStr desc (str "at the top") ||
      includesStr desc (str "at the beginning") ||
      includesStr desc (str "first line") then
    (codeBlock ++ '\n' :: '\n' :: existingContent, str "inserted at top")
  else if includesStr desc (str "after import") ||
      includesStr desc (str "after the import") then
    match findImportRun existingContent with
    | some (idx, len) =>
      let insertPos := idx + len
      (existingContent.take insertPos ++ '\n' :: codeBlock ++ '\n' ::
        existingContent.drop insertPos, str "inserted after imports")
    | none =>
      (codeBlock ++ '\n' :: '\n' :: existingContent,
        str "inserted at top (no imports found)")
  else
    match lineNumSearch desc with
    | some lineNum =>
      let lines := splitOnNl existingContent
      let insertIdx := spliceIndex lineNum lines.length
      (joinNl (lines.take insertIdx ++ codeBlock :: lines.drop insertIdx),
        str "inserted at line")
    | none =>
      match methodMatchSearch desc with
      | some methodName =>
        match patSearch (methodPat1At methodName) existingContent with
        | some (pos, len) =>
          (existingContent.take (pos + len) ++ '\n' :: codeBlock ++
            existingContent.drop (pos + len), str "inserted in method")
        | none =>
          match patSearch (methodPat2At methodName) existingContent with
          | some (pos, len) =>
            (existingContent.take (pos + len) ++ '\n' :: codeBlock ++
              existingContent.drop (pos + len), str "inserted in method")
          | none =>
            match patSearch (methodPat3At methodName) existingContent with
            | some (pos, len) =>
              (existingContent.take (pos + len) ++ '\n' :: codeBlock ++
                existingContent.drop (pos + len), str "inserted in method")
            | none =>
              match indexOfStr existingContent methodName with
              | some simpleIdx =>
                match indexOfCharFrom existingContent '{' simpleIdx with
                | some braceAfter =>
                  (existingContent.take (braceAfter + 1) ++ '\n' ::
                    codeBlock ++ existingContent.drop (braceAfter + 1),
                    str "inserted after opening brace")
                | none =>
                  (existingContent ++ '\n' :: '\n' :: codeBlock,
                    str "appended (couldn't find insertion point)")
              | none =>
                (existingContent ++ '\n' :: '\n' :: codeBlock,
                  str "appended (method not found)")
      | none =>
        match afterMatchSearch desc with
        | some afterName =>
          match indexOfStr existingContent afterName with
          | some idx =>
            match indexOfCharFrom existingContent '{' idx with
            | some startBrace =>
              let endPos :=
                match braceScanAux (existingContent.drop startBrace) 0 0 with
                | some rel => startBrace + rel
                | none => startBrace
              (existingContent.take endPos ++ '\n' :: '\n' :: codeBlock ++
                existingContent.drop endPos, str "inserted after")
            | none =>
              (existingContent ++ '\n' :: '\n' :: codeBlock,
                str "appended (no block found)")
          | none =>
            (existingContent ++ '\n' :: '\n' :: codeBlock,
              str "appended (reference not found)")
        | none =>
          (existingContent ++ '\n' :: '\n' :: codeBlock, str "appended at end")

/-- handleInsertCode: no LLM call; the target is validated, a missing file
is created verbatim from the code block, and an existing file goes through
the insertion locator. -/
def handleInsertCode (step : PlanStep) (rootDir : Str) (fs : FS) :
    FS × List Str :=
  match step.target, step.codeBlock with
  | some target, some codeBlock =>
    if target = [] || codeBlock = [] then
      (fs, [str "⚠️ Missing target or code block"])
    else if includesStr target (str " - ") || target.length > 200 then
      (fs, [str "⚠️ Invalid target path detected",
            str "This appears to be a malformed path. Skipping step."])
    else
      let filePath := rootDir ++ '/' :: target
      match fsRead fs filePath with
      | none => (fsWrite fs filePath codeBlock, [str "✅ Created: " ++ target])
      | some existingContent =>
        let desc := toLowerStr step.description
        let r := insertCodeIntoContent existingContent desc codeBlock
        (fsWrite fs filePath r.1, [str "✅ Modified: " ++ target, r.2])
  | _, _ => (fs, [str "⚠️ Missing target or code block"])

/-! ### Verification retry loop (executeStepsWithVerification, Phase C) -/

/-- Constant MAX_VERIFICATION_ATTEMPTS = 10 from autonomous.ts. -/
def MAX_VERIFICATION_ATTEMPTS : Nat := 10

/-- Outcome reported by VerificationEngine.verify for one attempt, abstracted
to what the loop in executeStepsWithVerification inspects: result.passed, and
when not passed the number of failing criteria
(result.criteriaResults.filter(c => !c.passed).length). -/
inductive AttemptOutcome
  | passed
  | failed (failedCount : Nat)

/-- Exit state of the while loop in executeStepsWithVerification: the final
values of attempt, verificationPassed and stuckCount, plus a count of how many
times executeSteps was invoked (one yield* per loop iteration). -/
structure VerifyLoopResult where
  attempt : Nat
  executions : Nat
  verificationPassed : Bool
  stuckCount : Nat
deriving Repr, DecidableEq

/-- The comparison currentFailedCount >= lastFailedCount, where
lastFailedCount starts at Infinity (modelled as none, which no Nat reaches). -/
def failedGe (current : Nat) (last : Option Nat) : Bool :=
  match last with
  | none => false
  | some l => decide (l ≤ current)

/-- The while loop of executeStepsWithVerification.  The loop guard is
attempt < MAX_VERIFICATION_ATTEMPTS && !verificationPassed; fuel is the
number of guard-allowed iterations left (MAX_VERIFICATION_ATTEMPTS - attempt).
Each iteration increments attempt, invokes executeSteps once, consumes the
verification result for that attempt from the results oracle, and then either
sets verificationPassed, breaks when attempt >= MAX_VERIFICATION_ATTEMPTS or
stuckCount >= 2 (shouldStop), or regenerates steps and loops. -/
def verifyLoopAux (results : Nat → AttemptOutcome) :
    Nat → Nat → Nat → Option Nat → Nat → VerifyLoopResult
  | 0, attempt, execs, _, stuck => ⟨attempt, execs, false, stuck⟩
  | fuel + 1, attempt, execs, last, stuck =>
    let a := attempt + 1
    let e := execs + 1
    match results a with
    | .passed => ⟨a, e, true, stuck⟩
    | .failed c =>
      let stuck' := if failedGe c last then stuck + 1 else 0
      if a ≥ MAX_VERIFICATION_ATTEMPTS ∨ stuck' ≥ 2 then ⟨a, e, false, stuck'⟩
      else verifyLoopAux results fuel a e (some c) stuck'

/-- Entry: attempt = 0, lastFailedCount = Infinity, stuckCount = 0. -/
def executeStepsWithVerificationLoop (results : Nat → AttemptOutcome) :
    VerifyLoopResult :=
  verifyLoopAux results MAX_VERIFICATION_ATTEMPTS 0 0 none 0

/-! ### Content extraction (extractTextContent) -/

/-- One element of an array-valued ChatMessage.content. -/
inductive MessagePart
  | text (t : Str)
  | nonText
deriving DecidableEq

/-- ChatMessage.content: absent/undefined, a plain string, or a parts array. -/
inductive MessageContent
  | absent
  | ofString (s : Str)
  | ofParts (parts : List MessagePart)

/-- The slice of ChatMessage that extractTextContent reads. -/
structure ChatMessage where
  content : MessageContent

/-- Return type of extractTextContent. -/
structure ExtractedContent where
  contextContent : Str
  userInstruction : Str
  fullContent : Str
deriving Repr, DecidableEq

/-- The text of a part when part.type === "text". -/
def textOfPart : MessagePart → Option Str
  | .text t => some t
  | .nonText => none

/-- JS Array.prototype.join("\n\n"). -/
def joinBlank : List Str → Str
  | [] => []
  | [l] => l
  | l :: ls => l ++ '\n' :: '\n' :: joinBlank ls

/-- extractTextContent from autonomous.ts.  The falsy check
!message.content catches both an absent content and the empty string. -/
def extractTextContent (message : ChatMessage) : ExtractedContent :=
  match message.content with
  | .absent => ⟨[], [], []⟩
  | .ofString s => if s = [] then ⟨[], [], []⟩ else ⟨[], s, s⟩
  | .ofParts parts =>
    match parts.filterMap textOfPart with
    | [] => ⟨[], [], []⟩
    | [t] => ⟨[], t, t⟩
    | ts => ⟨joinBlank ts.dropLast, ts.getLastD [], joinBlank ts⟩

/-! ### The simple machine-format parser (parseSimplePlanSteps) -/

/-- Verb alternatives of the simple-parser line regex. -/
def simpleVerbs : List Str :=
  [str "CREATE_FILE", str "EDIT_FILE", str "RUN_COMMAND", str "ANALYZE"]

/-- Bullet part (?:^\d+\.\s*|^-\s*|^\*\s*) of the simple-parser line regex:
every alternative is anchored at the line start; the bullet and the
following whitespace are consumed. -/
def matchBullet (l : Str) : Option Str :=
  match l with
  | [] => none
  | c :: _ =>
    if c.isDigit then
      if (l.drop (l.takeWhile Char.isDigit).length).head? = some '.' then
        some (((l.drop (l.takeWhile Char.isDigit).length).drop 1).dropWhile
          isWS)
      else none
    else if c = '-' then some ((l.drop 1).dropWhile isWS)
    else if c = '*' then some ((l.drop 1).dropWhile isWS)
    else none

/-- Verb alternation with the i flag, tried in source order; the consumed
verb is reported lowered (the parser lowercases match[1] right away). -/
def matchVerbAux (alts : List Str) (l : Str) : Option (Str × Str) :=
  match alts with
  | [] => none
  | v :: more =>
    if toLowerStr (l.take v.length) = toLowerStr v then
      some (toLowerStr v, l.drop v.length)
    else matchVerbAux more l

/-- The (CREATE_FILE|EDIT_FILE|RUN_COMMAND|ANALYZE) alternation. -/
def matchVerb (l : Str) : Option (Str × Str) := matchVerbAux simpleVerbs l

/-- Tail \s*(.+) of the line regex after the colon: greedy whitespace then a
nonempty capture; with backtracking the match succeeds exactly when at least
one character follows the colon, and when everything after the colon is
whitespace the capture keeps the final character. -/
def restCapture (s : Str) : Option Str :=
  if (s.takeWhile isWS).length < s.length then
    some (s.drop (s.takeWhile isWS).length)
  else if 1 ≤ s.length then some (s.drop (s.length - 1))
  else none

/-- One line matched against
(?:^\d+\.\s*|^-\s*|^\*\s*)(CREATE_FILE|EDIT_FILE|RUN_COMMAND|ANALYZE):\s*(.+)
(the i flag only affecting the verb): returns (lowered verb, remainder). -/
def parseSimpleLine (l : Str) : Option (Str × Str) :=
  match matchBullet l with
  | none => none
  | some r1 =>
    match matchVerb r1 with
    | none => none
    | some (v, r2) =>
      if r2.head? = some ':' then
        match restCapture (r2.drop 1) with
        | none => none
        | some rest => some (v, rest)
      else none

/-- target.replace(/\s+[A-Z].*$/, ""): delete from the first whitespace run
that is immediately followed by an uppercase letter through the end. -/
def stripDescArtifact : Str → Str
  | [] => []
  | c :: rest =>
    if isWS c then
      match rest.dropWhile isWS with
      | d :: _ => if d.isUpper then [] else c :: stripDescArtifact rest
      | [] => c :: stripDescArtifact rest
    else c :: stripDescArtifact rest

/-- target.replace(/^`|`$/g, ""): drop one leading and one trailing
backtick when present. -/
def stripBackticks (s : Str) : Str :=
  let s1 :=
    match s with
    | c :: rest => if c = '`' then rest else c :: rest
    | [] => []
  match s1.getLast? with
  | some c => if c = '`' then s1.dropLast else s1
  | none => s1

/-- The typeStr.includes routing of parseSimplePlanSteps. -/
def simpleTypeOf (typeStr : Str) : StepType :=
  if includesStr typeStr (str "create") then .create_file
  else if includesStr typeStr (str "edit") then .edit_file
  else if includesStr typeStr (str "run") then .run_command
  else .analyze

/-- Build the step for one matched line: split the remainder on "|"
(preferred) or " - " into target and description (description defaulting to
the target when absent or empty), then clean the target. -/
def simpleStepOfLine (id : Nat) (v rest : Str) : PlanStep :=
  let td : Str × Str :=
    if includesStr rest (str "|") then
      let parts := (splitOnChar '|' rest).map trimStr
      let p0 := (parts.get? 0).getD []
      let p1 := (parts.get? 1).getD []
      (p0, if p1 = [] then p0 else p1)
    else if includesStr rest (str " - ") then
      match indexOfStr rest (str " - ") with
      | some dashIdx =>
        (trimStr (rest.take dashIdx), trimStr (rest.drop (dashIdx + 3)))
      | none => (trimStr rest, trimStr rest)
    else (trimStr rest, trimStr rest)
  { id := id, description := td.2, type := simpleTypeOf v,
    target := some (stripBackticks (trimStr (stripDescArtifact td.1))) }

/-- Line loop of parseSimplePlanSteps with the running step counter. -/
def parseSimplePlanStepsAux (lines : List Str) (stepNum : Nat) :
    List PlanStep :=
  match lines with
  | [] => []
  | line :: more =>
    match parseSimpleLine line with
    | some (v, rest) =>
      simpleStepOfLine (stepNum + 1) v rest ::
        parseSimplePlanStepsAux more (stepNum + 1)
    | none => parseSimplePlanStepsAux more stepNum

/-- parseSimplePlanSteps from autonomous.ts. -/
def parseSimplePlanSteps (content : Str) : List PlanStep :=
  parseSimplePlanStepsAux (splitOnNl content) 0

/-- Whitespace-only string (the \s* parts of the grammar). -/
def WSStr (s : Str) : Prop := ∀ c ∈ s, isWS c = true

/-- The bullet grammar (\d+\.|-|\*). -/
inductive BulletForm : Str → Prop
  | digits (d : Str) : d ≠ [] → (∀ c ∈ d, c.isDigit = true) →
      BulletForm (d ++ ['.'])
  | dash : BulletForm ['-']
  | star : BulletForm ['*']

/-- The verb grammar, case-insensitive. -/
def VerbForm (v : Str) : Prop :=
  toLowerStr v = str "create_file" ∨ toLowerStr v = str "edit_file" ∨
    toLowerStr v = str "run_command" ∨ toLowerStr v = str "analyze"

/-- Modelled from the spec wording (section 6): the machine-format plan-line
grammar ^\s*(\d+\.|-|\*)\s*(CREATE_FILE|EDIT_FILE|RUN_COMMAND|ANALYZE):\s*(.+)$
with leading whitespace allowed before the bullet, as the claim states it. -/
def SpecMachineLineFull (l : Str) : Prop :=
  ∃ w0 b w1 v w2 rest : Str, WSStr w0 ∧ BulletForm b ∧ WSStr w1 ∧
    VerbForm v ∧ WSStr w2 ∧ rest ≠ [] ∧ '\n' ∉ rest ∧
    l = w0 ++ b ++ w1 ++ v ++ ':' :: w2 ++ rest

/-- The same grammar with the bullet anchored at the first character — the
acceptance condition the code actually implements. -/
def SpecMachineLineAnchored (l : Str) : Prop :=
  ∃ b w1 v w2 rest : Str, BulletForm b ∧ WSStr w1 ∧ VerbForm v ∧
    WSStr w2 ∧ rest ≠ [] ∧ '\n' ∉ rest ∧
    l = b ++ w1 ++ v ++ ':' :: w2 ++ rest

/-! ### Teddy-spec parser, pattern 1: "## Step N: Title" sections -/

/-- Head test for ##\s*Step\s*\d (the pattern-1 lookahead alternative and
teddy marker /##\s*Step\s*\d+/i): "##", greedy whitespace, "step"
case-insensitively, greedy whitespace, then a digit.  Existence of \d+ at a
position is existence of \d there. -/
def stepMarkerAt (s : Str) : Bool :=
  isPrefixOfB (str "##") s &&
    (let r := (s.drop 2).dropWhile isWS
     isPrefixCI (str "step") r &&
       (match ((r.drop 4).dropWhile isWS).head? with
        | some c => c.isDigit
        | none => false))

/-- Head test for ##\s*Acceptance, case-insensitively (the second pattern-1
lookahead alternative). -/
def acceptanceMarkerAt (s : Str) : Bool :=
  isPrefixOfB (str "##") s &&
    isPrefixCI (str "acceptance") ((s.drop 2).dropWhile isWS)

/-- The pattern-1 lookahead (?=##\s*Step\s*\d|##\s*Acceptance|$): without
the m flag, $ is the end of the input. -/
def p1BoundaryAt (s : Str) : Bool :=
  s.isEmpty || stepMarkerAt s || acceptanceMarkerAt s

/-- Length consumed by a lazy [\s\S]*? before the first position where the
lookahead boundary holds (fuel counts remaining characters; the boundary
always holds at the end of input for the boundaries this file uses). -/
def lazyLenAux (boundary : Str → Bool) : Str → Nat → Nat
  | _, 0 => 0
  | s, Nat.succ fuel =>
    if boundary s then 0
    else
      match s with
      | [] => 0
      | _ :: rest => 1 + lazyLenAux boundary rest fuel

/-- Lazy-quantifier consumption up to a boundary. -/
def lazyLen (boundary : Str → Bool) (s : Str) : Nat :=
  lazyLenAux boundary s s.length

/-- One backtracking candidate of \s*([^\n]+)\n: the \s* part takes exactly
k characters; the capture is then the maximal nonempty newline-free run,
which must be followed by a newline.  Returns (capture, rest after the
newline). -/
def titleAtK (r : Str) (k : Nat) : Option (Str × Str) :=
  let r1 := r.drop k
  let t := r1.takeWhile (fun c => c != '\n')
  if t ≠ [] ∧ (r1.drop t.length).head? = some '\n' then
    some (t, r1.drop (t.length + 1))
  else none

/-- Greedy \s* with backtracking: candidates are tried from the longest
whitespace run down to the empty one. -/
def titleTailTryAux (r : Str) : Nat → Option (Str × Str)
  | 0 => titleAtK r 0
  | Nat.succ k =>
    match titleAtK r (Nat.succ k) with
    | some res => some res
    | none => titleTailTryAux r k

/-- The \s*([^\n]+)\n tail of the pattern-1 step header. -/
def titleTail (r : Str) : Option (Str × Str) :=
  titleTailTryAux r (r.takeWhile isWS).length

/-- Match the pattern-1 step header
##\s*Step\s*(\d+):\s*([^\n]+)\n([\s\S]*?)(?=##\s*Step\s*\d|##\s*Acceptance|$)
at the head of s, returning (raw title capture, section body, total length
consumed by the match). -/
def stepHeaderAt (s : Str) : Option (Str × Str × Nat) :=
  if isPrefixOfB (str "##") s then
    let r1 := (s.drop 2).dropWhile isWS
    if isPrefixCI (str "step") r1 then
      let r2 := (r1.drop 4).dropWhile isWS
      let d := r2.takeWhile Char.isDigit
      if d ≠ [] ∧ (r2.drop d.length).head? = some ':' then
        let r3 := r2.drop (d.length + 1)
        match titleTail r3 with
        | some (title, rest) =>
          let bl := lazyLen p1BoundaryAt rest
          some (title, rest.take bl, (s.length - rest.length) + bl)
        | none => none
      else none
    else none
  else none

/-- One pattern-1 match: its index range in the document, the raw title
capture (match[2]) and the section body (match[3]). -/
structure StepSection where
  start : Nat
  len : Nat
  title : Str
  body : Str
deriving DecidableEq, Repr

/-- Global exec loop of the pattern-1 regex: scan left to right; after a
match, resume at the match end (fuel counts remaining characters). -/
def findStepSectionsAux : Str → Nat → Nat → List StepSection
  | _, _, 0 => []
  | s, pos, Nat.succ fuel =>
    match s with
    | [] => []
    | _ :: rest =>
      match stepHeaderAt s with
      | some (title, body, len) =>
        ⟨pos, len, title, body⟩ ::
          findStepSectionsAux (s.drop len) (pos + len) fuel
      | none => findStepSectionsAux rest (pos + 1) fuel

/-- All pattern-1 section matches of a document, in source order. -/
def findStepSections (s : Str) : List StepSection :=
  findStepSectionsAux s 0 s.length

/-- Match the fence regex ```(\w*)\n([\s\S]*?)``` at the head of s: three
backticks, a possibly empty word run (the language), a newline, then the
shortest body closed by three backticks.  Returns (language, raw body,
total length). -/
def codeFenceAt (s : Str) : Option (Str × Str × Nat) :=
  if isPrefixOfB (str "```") s then
    let lang := (s.drop 3).takeWhile isWordChar
    let r := s.drop (3 + lang.length)
    if r.head? = some '\n' then
      let rest := r.drop 1
      match indexOfStr rest (str "```") with
      | some k => some (lang, rest.take k, 3 + lang.length + 1 + k + 3)
      | none => none
    else none
  else none

/-- matchAll loop for the fence regex (fuel counts remaining characters). -/
def codeFencesAux : Str → Nat → List (Str × Str)
  | _, 0 => []
  | s, Nat.succ fuel =>
    match s with
    | [] => []
    | _ :: rest =>
      match codeFenceAt s with
      | some (lang, body, len) => (lang, body) :: codeFencesAux (s.drop len) fuel
      | none => codeFencesAux rest fuel

/-- [...stepContent.matchAll(/```(\w*)\n([\s\S]*?)```/g)] as (lang, body)
pairs in source order. -/
def codeFences (s : Str) : List (Str × Str) :=
  codeFencesAux s s.length

/-- Non-global .match for the fence regex: the leftmost fence only. -/
def codeFenceSearch : Str → Option (Str × Str)
  | [] => none
  | c :: rest =>
    match codeFenceAt (c :: rest) with
    | some (lang, body, _) => some (lang, body)
    | none => codeFenceSearch rest

/-- One backtracking candidate of \S+\.\w+ within the maximal non-whitespace
run: \S+ takes q characters, the dot sits at index q, and the capture closes
with the maximal nonempty word run after the dot. -/
def dotTailAt (run : Str) (q : Nat) : Option Str :=
  if run.get? q = some '.' then
    let w := (run.drop (q + 1)).takeWhile isWordChar
    if w ≠ [] then some (run.take q ++ '.' :: w) else none
  else none

/-- Greedy \S+ with backtracking: dot positions tried from the right; the
dot index must be at least 1 so that \S+ is nonempty. -/
def dotTryQ (run : Str) : Nat → Option Str
  | 0 => none
  | Nat.succ q =>
    match dotTailAt run (Nat.succ q) with
    | some cap => some cap
    | none => dotTryQ run q

/-- The \S+\.\w+ alternative at the head of r: the consumed text equals the
capture. -/
def sPlusDotW (r : Str) : Option Str :=
  let run := r.takeWhile (fun c => !(isWS c))
  dotTryQ run run.length

/-- The :\*\*\s*(?:`([^`]+)`|(\S+\.\w+)) tail of the Target-File regexes:
":**", greedy whitespace, then either a nonempty backtick-quoted capture or
a \S+\.\w+ capture (tried at the same position when the quoted alternative
fails).  Returns (capture, rest after the consumed text). -/
def targetColonCapture (r : Str) : Option (Str × Str) :=
  if isPrefixOfB (str ":**") r then
    let r2 := (r.drop 3).dropWhile isWS
    if r2.head? = some '`' then
      let t := (r2.drop 1).takeWhile (fun c => c != '`')
      if t ≠ [] ∧ ((r2.drop 1).drop t.length).head? = some '`' then
        some (t, (r2.drop 1).drop (t.length + 1))
      else
        match sPlusDotW r2 with
        | some cap => some (cap, r2.drop cap.length)
        | none => none
    else
      match sPlusDotW r2 with
      | some cap => some (cap, r2.drop cap.length)
      | none => none
  else none

/-- Match /\*\*Target(?:\s*File)?:\*\*\s*(?:`([^`]+)`|(\S+\.\w+))/i at the
head of s: the optional File group is greedy, so it is tried first and the
bare colon path is the fallback.  Returns (target capture, rest). -/
def targetFileAt (s : Str) : Option (Str × Str) :=
  if isPrefixCI (str "**target") s then
    let r := s.drop 8
    let r1 := r.dropWhile isWS
    match (if isPrefixCI (str "file") r1 then targetColonCapture (r1.drop 4)
           else none) with
    | some res => some res
    | none => targetColonCapture r
  else none

/-- Leftmost Target-File match (the non-global stepContent.match call). -/
def targetFileSearch : Str → Option (Str × Str)
  | [] => none
  | c :: rest =>
    match targetFileAt (c :: rest) with
    | some res => some res
    | none => targetFileSearch rest

/-- The lang === "bash" || lang === "sh" || lang === "shell" test run on the
lowercased fence language. -/
def isBashLang (lang : Str) : Bool :=
  decide (lang = str "bash" ∨ lang = str "sh" ∨ lang = str "shell")

/-- modifyKeywords of isModificationStep. -/
def modifyKeywords : List Str :=
  [str "modify", str "update", str "change", str "edit", str "fix",
   str "replace", str "refactor", str "remove", str "delete", str "rename",
   str "move", str "convert", str "transform", str "rewrite"]

/-- isModificationStep from autonomous.ts: some modify keyword occurs in the
lowercased description. -/
def isModificationStep (description : Str) : Bool :=
  modifyKeywords.any (fun k => includesStr (toLowerStr description) k)

/-- actionVerbs of hasActionVerb. -/
def actionVerbs : List Str :=
  [str "add", str "insert", str "create", str "modify", str "update",
   str "change", str "edit", str "implement", str "fix", str "remove",
   str "delete", str "replace", str "refactor"]

/-- hasActionVerb from autonomous.ts. -/
def hasActionVerb (title : Str) : Bool :=
  actionVerbs.any (fun v => includesStr (toLowerStr title) v)

/-- The \s*(?:file:|in:?)?\s*(\S+\.\w+) tail of the first-comment regex of
inferTargetFromCode: the optional keyword group is greedy (tried as "file:",
then "in:", then "in", then absent), each candidate continuing with greedy
whitespace and a \S+\.\w+ capture. -/
def inferCommentTail (r1 : Str) : Option Str :=
  let r2 := r1.dropWhile isWS
  match (if isPrefixCI (str "file:") r2 then sPlusDotW ((r2.drop 5).dropWhile isWS)
         else none) with
  | some t => some t
  | none =>
    match (if isPrefixCI (str "in:") r2 then sPlusDotW ((r2.drop 3).dropWhile isWS)
           else none) with
    | some t => some t
    | none =>
      match (if isPrefixCI (str "in") r2 then sPlusDotW ((r2.drop 2).dropWhile isWS)
             else none) with
      | some t => some t
      | none => sPlusDotW r2

/-- The anchored first-comment regex
/^(?:\/\/|#|--)\s*(?:file:|in:?)?\s*(\S+\.\w+)/i of inferTargetFromCode
(no m flag: it must match at the start of the code). -/
def inferCommentTarget (code : Str) : Option Str :=
  if isPrefixOfB (str "//") code then inferCommentTail (code.drop 2)
  else if isPrefixOfB (str "#") code then inferCommentTail (code.drop 1)
  else if isPrefixOfB (str "--") code then inferCommentTail (code.drop 2)
  else none

/-- The \s+(\w+) tail shared by the mod and class/interface declaration
regexes: a nonempty whitespace run then a nonempty word capture. -/
def wsWordTail (r : Str) : Option Str :=
  let w := r.takeWhile isWS
  if w ≠ [] then
    let name := (r.drop w.length).takeWhile isWordChar
    if name ≠ [] then some name else none
  else none

/-- Match /mod\s+(\w+)/ at the head of s (case-sensitive). -/
def modDeclAt (s : Str) : Option Str :=
  if isPrefixOfB (str "mod") s then wsWordTail (s.drop 3) else none

/-- Leftmost /mod\s+(\w+)/ match. -/
def modDeclSearch : Str → Option Str
  | [] => none
  | c :: rest =>
    match modDeclAt (c :: rest) with
    | some n => some n
    | none => modDeclSearch rest

/-- Match /(?:class|interface)\s+(\w+)/ at the head of s (case-sensitive),
alternatives in source order. -/
def classDeclAt (s : Str) : Option Str :=
  match (if isPrefixOfB (str "class") s then wsWordTail (s.drop 5)
         else none) with
  | some n => some n
  | none =>
    if isPrefixOfB (str "interface") s then wsWordTail (s.drop 9)
    else none

/-- Leftmost /(?:class|interface)\s+(\w+)/ match. -/
def classDeclSearch : Str → Option Str
  | [] => none
  | c :: rest =>
    match classDeclAt (c :: rest) with
    | some n => some n
    | none => classDeclSearch rest

/-- inferTargetFromCode from autonomous.ts: first-comment path, then the
rust mod declaration (suffix ".rs"), then the typescript class/interface
declaration (suffix ".ts"). -/
def inferTargetFromCode (code lang : Str) : Option Str :=
  match inferCommentTarget code with
  | some t => some t
  | none =>
    match (if lang = str "rust" ∨ lang = str "rs" then modDeclSearch code
           else none) with
    | some m => some (m ++ str ".rs")
    | none =>
      match (if lang = str "typescript" ∨ lang = str "ts" then
               classDeclSearch code
             else none) with
      | some c => some (c ++ str ".ts")
      | none => none

/-- Pattern-1 per-fence step construction: the counter is advanced for every
fence; bash/sh/shell fences become one run_command step whose target is the
first line of the trimmed code; other fences use the section target, or an
inferred one, and become edit_file/insert_code by isModificationStep; with
no target at all, no step is pushed (but the counter stays advanced). -/
def p1StepOfBlock (stepTitle : Str) (target : Option Str) (stepNum : Nat)
    (block : Str × Str) : Nat × Option PlanStep :=
  let lang := toLowerStr block.1
  let code := trimStr block.2
  let n := stepNum + 1
  if isBashLang lang then
    (n, some { id := n, description := stepTitle, type := .run_command,
               target := some ((splitOnNl code).headD []),
               codeBlock := some code })
  else
    match target with
    | some t =>
      (n, some { id := n, description := stepTitle,
                 type := if isModificationStep stepTitle then .edit_file
                         else .insert_code,
                 target := some t, codeBlock := some code })
    | none =>
      match inferTargetFromCode code lang with
      | some it =>
        (n, some { id := n, description := stepTitle,
                   type := if isModificationStep stepTitle then .edit_file
                           else .insert_code,
                   target := some it, codeBlock := some code })
      | none => (n, none)

/-- The for-loop of pattern 1 over the fences of one section. -/
def p1BlocksFold (stepTitle : Str) (target : Option Str) :
    List (Str × Str) → Nat → List PlanStep × Nat
  | [], n => ([], n)
  | b :: bs, n =>
    match p1StepOfBlock stepTitle target n b with
    | (n1, some st) =>
      let res := p1BlocksFold stepTitle target bs n1
      (st :: res.1, res.2)
    | (n1, none) => p1BlocksFold stepTitle target bs n1

/-- Pattern-1 handling of one matched section: trim the title, look up the
Target-File capture in the body, and if the body holds at least one fence,
emit the fence steps and mark the section's range processed. -/
def sectionSteps (n : Nat) (sec : StepSection) :
    List PlanStep × Nat × List (Nat × Nat) :=
  let stepTitle := trimStr sec.title
  let target := (targetFileSearch sec.body).map (·.1)
  let blocks := codeFences sec.body
  if 0 < blocks.length then
    let res := p1BlocksFold stepTitle target blocks n
    (res.1, res.2, [(sec.start, sec.start + sec.len)])
  else ([], n, [])

/-- The while loop of pattern 1 over all matched sections. -/
def teddyPattern1Aux : List StepSection → Nat → List PlanStep × Nat × List (Nat × Nat)
  | [], n => ([], n, [])
  | sec :: more, n =>
    let res1 := sectionSteps n sec
    let res2 := teddyPattern1Aux more res1.2.1
    (res1.1 ++ res2.1, res2.2.1, res1.2.2 ++ res2.2.2)

/-- Pattern 1 of parseTeddySpecSteps: steps, final counter and processed
ranges produced by the "## Step N:" sections. -/
def parseTeddyPattern1 (content : Str) : List PlanStep × Nat × List (Nat × Nat) :=
  teddyPattern1Aux (findStepSections content) 0

/-- isProcessed from parseTeddySpecSteps: pos lies in some recorded
[start, end) range. -/
def isProcessed (ranges : List (Nat × Nat)) (pos : Nat) : Bool :=
  ranges.any (fun r => r.1 ≤ pos && pos < r.2)

/-! ### Teddy-spec parser, patterns 2-4 -/

/-- Head test for ##\s*Step case-insensitively (the pattern-2 lookahead
alternative, which unlike pattern 1's needs no digit). -/
def p2StepHdrAt (s : Str) : Bool :=
  isPrefixOfB (str "##") s && isPrefixCI (str "step") ((s.drop 2).dropWhile isWS)

/-- The pattern-2 lookahead (?=\*\*Target|##\s*Step|$). -/
def p2BoundaryAt (s : Str) : Bool :=
  s.isEmpty || isPrefixCI (str "**target") s || p2StepHdrAt s

/-- Match pattern 2
\*\*Target(?:\s*File)?:\*\*\s*(?:`([^`]+)`|(\S+\.\w+))([\s\S]*?)(?=...)
at the head of s: the Target-File head plus a lazy section capture.
Returns (target, section, total length). -/
def pattern2At (s : Str) : Option (Str × Str × Nat) :=
  match targetFileAt s with
  | some (t, rest) =>
    let sl := lazyLen p2BoundaryAt rest
    some (t, rest.take sl, (s.length - rest.length) + sl)
  | none => none

/-- One backtracking candidate of \s*([^\n]+) (no trailing newline
required): the \s* part takes exactly k characters and the capture is the
maximal nonempty newline-free run there. -/
def wsCapAtK (r : Str) (k : Nat) : Option Str :=
  let t := (r.drop k).takeWhile (fun c => c != '\n')
  if t ≠ [] then some t else none

/-- Greedy \s* with backtracking for \s*([^\n]+), longest run first. -/
def wsCapTryAux (r : Str) : Nat → Option Str
  | 0 => wsCapAtK r 0
  | Nat.succ k =>
    match wsCapAtK r (Nat.succ k) with
    | some t => some t
    | none => wsCapTryAux r k

/-- The \s*([^\n]+) tail of the Action regex. -/
def wsCaptureTail (r : Str) : Option Str :=
  wsCapTryAux r (r.takeWhile isWS).length

/-- Match /\*\*Action:\*\*\s*([^\n]+)/i at the head of s. -/
def actionCapAt (s : Str) : Option Str :=
  if isPrefixCI (str "**action:**") s then wsCaptureTail (s.drop 11) else none

/-- Leftmost Action match (the non-global sectionContent.match call). -/
def actionSearch : Str → Option Str
  | [] => none
  | c :: rest =>
    match actionCapAt (c :: rest) with
    | some cap => some cap
    | none => actionSearch rest

/-- The global exec loop of pattern 2: skip matches whose index is already
processed; for the rest, extract the action description (defaulting to
"Modify <target>"), find the first fence of the section and, unless it is a
bash/sh fence, emit one edit_file/insert_code step and mark the match's
range processed.  Returns (steps, final counter, final ranges). -/
def pattern2Fold : Str → Nat → Nat → List (Nat × Nat) → Nat →
    List PlanStep × Nat × List (Nat × Nat)
  | _, _, n, ranges, 0 => ([], n, ranges)
  | s, pos, n, ranges, Nat.succ fuel =>
    match s with
    | [] => ([], n, ranges)
    | _ :: rest =>
      match pattern2At s with
      | none => pattern2Fold rest (pos + 1) n ranges fuel
      | some (t, sect, len) =>
        if isProcessed ranges pos then
          pattern2Fold (s.drop len) (pos + len) n ranges fuel
        else
          let actionDesc :=
            match actionSearch sect with
            | some cap => trimStr cap
            | none => str "Modify " ++ t
          match codeFenceSearch sect with
          | some (lang0, raw) =>
            let lang := toLowerStr lang0
            if ¬ (lang = str "bash" ∨ lang = str "sh") then
              let st : PlanStep :=
                { id := n + 1, description := actionDesc,
                  type := if isModificationStep actionDesc then .edit_file
                          else .insert_code,
                  target := some t, codeBlock := some (trimStr raw) }
              let res := pattern2Fold (s.drop len) (pos + len) (n + 1)
                (ranges ++ [(pos, pos + len)]) fuel
              (st :: res.1, res.2.1, res.2.2)
            else pattern2Fold (s.drop len) (pos + len) n ranges fuel
          | none => pattern2Fold (s.drop len) (pos + len) n ranges fuel

/-- Match pattern 3 /```(?:bash|sh|shell)\n([\s\S]*?)```/i at the head of s,
alternatives in source order, each falling through when its continuation
fails.  Returns (raw body, total length). -/
def bashFenceAt (s : Str) : Option (Str × Nat) :=
  if isPrefixOfB (str "```") s then
    let r := s.drop 3
    let tryLang : Nat → Option (Str × Nat) := fun k =>
      if (r.drop k).head? = some '\n' then
        let rest := (r.drop k).drop 1
        match indexOfStr rest (str "```") with
        | some i => some (rest.take i, 3 + k + 1 + i + 3)
        | none => none
      else none
    match (if isPrefixCI (str "bash") r then tryLang 4 else none) with
    | some res => some res
    | none =>
      match (if isPrefixCI (str "sh") r then tryLang 2 else none) with
      | some res => some res
      | none => if isPrefixCI (str "shell") r then tryLang 5 else none
  else none

/-- The command-line filter of pattern 3: keep lines that are nonempty after
trimming and whose trimmed form does not start with "#". -/
def cmdLinesOf (commands : Str) : List Str :=
  (splitOnNl commands).filter
    (fun l => decide (trimStr l ≠ []) && ! isPrefixOfB (str "#") (trimStr l))

/-- The inner for-loop of pattern 3: one run_command step per kept line. -/
def p3Steps : List Str → Nat → List PlanStep × Nat
  | [], n => ([], n)
  | c :: cs, n =>
    let t := trimStr c
    let st : PlanStep :=
      { id := n + 1, description := str "Run: " ++ t.take 50,
        type := .run_command, target := some t, codeBlock := some t }
    let res := p3Steps cs (n + 1)
    (st :: res.1, res.2)

/-- The global exec loop of pattern 3 over standalone bash fences: skip
processed indices; otherwise split the trimmed body into command lines,
emit their steps and mark the match's range processed. -/
def pattern3Fold : Str → Nat → Nat → List (Nat × Nat) → Nat →
    List PlanStep × Nat × List (Nat × Nat)
  | _, _, n, ranges, 0 => ([], n, ranges)
  | s, pos, n, ranges, Nat.succ fuel =>
    match s with
    | [] => ([], n, ranges)
    | _ :: rest =>
      match bashFenceAt s with
      | none => pattern3Fold rest (pos + 1) n ranges fuel
      | some (raw, len) =>
        if isProcessed ranges pos then
          pattern3Fold (s.drop len) (pos + len) n ranges fuel
        else
          let res0 := p3Steps (cmdLinesOf (trimStr raw)) n
          let res := pattern3Fold (s.drop len) (pos + len) res0.2
            (ranges ++ [(pos, pos + len)]) fuel
          (res0.1 ++ res.1, res.2.1, res.2.2)

/-- The negative lookahead (?!\s*\d+\.\s*\*\*) of pattern 4: whitespace,
a nonempty digit run, a dot, whitespace, then two asterisks. -/
def numberedLookahead (s : Str) : Bool :=
  let r := s.dropWhile isWS
  let d := r.takeWhile Char.isDigit
  decide (d ≠ [] ∧ (r.drop d.length).head? = some '.' ∧
    isPrefixOfB (str "**") ((r.drop (d.length + 1)).dropWhile isWS) = true)

/-- Continuation lines of the pattern-4 details capture: repeatedly consume
a newline not followed by a new numbered item, plus the rest of that line. -/
def detailsMoreAux : Str → Nat → Nat
  | _, 0 => 0
  | s, Nat.succ fuel =>
    if s.head? = some '\n' ∧ numberedLookahead (s.drop 1) = false then
      let t := ((s.drop 1).takeWhile (fun c => c != '\n')).length
      1 + t + detailsMoreAux ((s.drop 1).drop t) fuel
    else 0

/-- Length of the pattern-4 details capture
[^\n]*(?:\n(?!\s*\d+\.\s*\*\*)[^\n]*)* at the head of s. -/
def detailsLen (s : Str) : Nat :=
  let t := (s.takeWhile (fun c => c != '\n')).length
  t + detailsMoreAux (s.drop t) s.length

/-- The [:\s] class of pattern 4. -/
def isColonOrWS (c : Char) : Bool := c = ':' || isWS c

/-- Match pattern 4
^\s*(\d+)\.\s*\*\*([^*]+)\*\*[:\s]*([^\n]*(?:\n(?!\s*\d+\.\s*\*\*)[^\n]*)*)
at a line-start position.  Returns (raw title, raw details, total length). -/
def pattern4At (s : Str) : Option (Str × Str × Nat) :=
  let r := s.dropWhile isWS
  let d := r.takeWhile Char.isDigit
  if d ≠ [] ∧ (r.drop d.length).head? = some '.' then
    let r2 := (r.drop (d.length + 1)).dropWhile isWS
    if isPrefixOfB (str "**") r2 then
      let t := (r2.drop 2).takeWhile (fun c => c != '*')
      if t ≠ [] ∧ isPrefixOfB (str "**") ((r2.drop 2).drop t.length) then
        let r3 := ((r2.drop 2).drop (t.length + 2)).dropWhile isColonOrWS
        let dl := detailsLen r3
        some (t, r3.take dl, (s.length - r3.length) + dl)
      else none
    else none
  else none

/-- The \s+(?:`([^`]+)`|(\S+\.\w+)) tail of the pattern-4 file-reference
regex: a nonempty whitespace run, then the quoted or dotted capture. -/
def fileRefTail (r : Str) : Option Str :=
  let w := r.takeWhile isWS
  if w ≠ [] then
    let r2 := r.drop w.length
    if r2.head? = some '`' then
      let t := (r2.drop 1).takeWhile (fun c => c != '`')
      if t ≠ [] ∧ ((r2.drop 1).drop t.length).head? = some '`' then some t
      else sPlusDotW r2
    else sPlusDotW r2
  else none

/-- Match /(?:in|to|at|from|file)\s+(?:`([^`]+)`|(\S+\.\w+))/i at the head
of s, keyword alternatives in source order with fall-through. -/
def fileRefAt (s : Str) : Option Str :=
  match (if isPrefixCI (str "in") s then fileRefTail (s.drop 2) else none) with
  | some t => some t
  | none =>
    match (if isPrefixCI (str "to") s then fileRefTail (s.drop 2) else none) with
    | some t => some t
    | none =>
      match (if isPrefixCI (str "at") s then fileRefTail (s.drop 2) else none) with
      | some t => some t
      | none =>
        match (if isPrefixCI (str "from") s then fileRefTail (s.drop 4)
               else none) with
        | some t => some t
        | none =>
          if isPrefixCI (str "file") s then fileRefTail (s.drop 4) else none

/-- Leftmost file-reference match in the details. -/
def fileRefSearch : Str → Option Str
  | [] => none
  | c :: rest =>
    match fileRefAt (c :: rest) with
    | some t => some t
    | none => fileRefSearch rest

/-- Pattern-4 per-match step construction, on the trimmed title and details
and the whole match text: a fence makes the item actionable (bash fences
become run_command on the first code line; otherwise the referenced or
inferred target decides edit_file/insert_code/analyze); with no fence, a
referenced target plus an action verb makes a code-less edit_file step. -/
def p4Step (title details fullSection : Str) (n : Nat) : Nat × Option PlanStep :=
  let target := fileRefSearch details
  match codeFenceSearch fullSection with
  | some (lang0, raw) =>
    let lang := toLowerStr lang0
    let code := trimStr raw
    let n1 := n + 1
    if isBashLang lang then
      (n1, some { id := n1, description := title, type := .run_command,
                  target := some ((splitOnNl code).headD []),
                  codeBlock := some code })
    else
      match target with
      | some t =>
        (n1, some { id := n1, description := title,
                    type := if isModificationStep title then .edit_file
                            else .insert_code,
                    target := some t, codeBlock := some code })
      | none =>
        let it := inferTargetFromCode code lang
        (n1, some { id := n1, description := title,
                    type := if isModificationStep title then .edit_file
                            else if it.isSome then .insert_code else .analyze,
                    target := it, codeBlock := some code })
  | none =>
    match target with
    | some t =>
      if hasActionVerb title then
        (n + 1, some { id := n + 1,
                       description := title ++ str ": " ++ details.take 150,
                       type := .edit_file, target := some t })
      else (n, none)
    | none => (n, none)

/-- The global exec loop of pattern 4 with the m-flag ^ anchor: a match is
attempted only at line starts (the flag tracks whether the previous
character was a newline); matched items advance past their whole text. -/
def pattern4Fold : Str → Nat → Bool → Nat → List (Nat × Nat) → Nat →
    List PlanStep × Nat
  | _, _, _, n, _, 0 => ([], n)
  | s, pos, ls, n, ranges, Nat.succ fuel =>
    match s with
    | [] => ([], n)
    | c :: rest =>
      match (if ls then pattern4At s else none) with
      | some (title, details, len) =>
        let nextLS := decide ((s.take len).getLast? = some '\n')
        if isProcessed ranges pos then
          pattern4Fold (s.drop len) (pos + len) nextLS n ranges fuel
        else
          match p4Step (trimStr title) (trimStr details) (s.take len) n with
          | (n1, some st) =>
            let res := pattern4Fold (s.drop len) (pos + len) nextLS n1 ranges fuel
            (st :: res.1, res.2)
          | (n1, none) =>
            pattern4Fold (s.drop len) (pos + len) nextLS n1 ranges fuel
      | none =>
        pattern4Fold rest (pos + 1) (decide (c = '\n')) n ranges fuel

/-- parseTeddySpecSteps from autonomous.ts: the four extraction patterns in
order, sharing the running step counter and the processed ranges. -/
def parseTeddySpecSteps (content : Str) : List PlanStep :=
  let res1 := parseTeddyPattern1 content
  let res2 := pattern2Fold content 0 res1.2.1 res1.2.2 content.length
  let res3 := pattern3Fold content 0 res2.2.1 res2.2.2 content.length
  let res4 := pattern4Fold content 0 true res3.2.1 res3.2.2 content.length
  res1.1 ++ res2.1 ++ res3.1 ++ res4.1

/-! ### detectPlanDocument -/

/-- Scan every suffix for a head-anchored Boolean matcher: the .test of an
unanchored regex. -/
def scanAnyB (p : Str → Bool) : Str → Bool
  | [] => p []
  | c :: rest => p (c :: rest) || scanAnyB p rest

/-- Case-insensitive substring test (the .test of an /i literal regex). -/
def includesCI (s sub : Str) : Bool :=
  scanAnyB (isPrefixCI sub) s

/-- Head test for the teddy marker /\*\*Target(?:\s*File)?:\*\*/i: the
optional File group, then ":**"; no target capture is required here. -/
def targetMarkerAt (s : Str) : Bool :=
  isPrefixCI (str "**target") s &&
    (let r := s.drop 8
     (isPrefixCI (str "file") (r.dropWhile isWS) &&
        isPrefixOfB (str ":**") ((r.dropWhile isWS).drop 4)) ||
       isPrefixOfB (str ":**") r)

/-- Head test for the teddy marker /###\s*Task\s*[A-Z]:/i: with the i flag
the class [A-Z] matches any ASCII letter. -/
def taskMarkerAt (s : Str) : Bool :=
  isPrefixOfB (str "###") s &&
    (let r := (s.drop 3).dropWhile isWS
     isPrefixCI (str "task") r &&
       (match (r.drop 4).dropWhile isWS with
        | a :: b :: _ => a.isAlpha && decide (b = ':')
        | _ => false))

/-- The six teddy markers tested on the document, in source order. -/
def teddyMarkerTests (content : Str) : List Bool :=
  [scanAnyB targetMarkerAt content,
   includesCI content (str "**action:**"),
   includesCI content (str "**implementation logic:**"),
   includesCI content (str "**goal:**"),
   scanAnyB stepMarkerAt content,
   scanAnyB taskMarkerAt content]

/-- hasTeddyFormat: at least two markers match. -/
def hasTeddyFormat (content : Str) : Bool :=
  decide (2 ≤ (teddyMarkerTests content).count true)

/-- Head test (used only at the start of the document: no m flag) for
/^\s*\d+\.\s*\*\*[^*]+\*\*/. -/
def numberedBoldAtStart (content : Str) : Bool :=
  let r := content.dropWhile isWS
  let d := r.takeWhile Char.isDigit
  decide (d ≠ [] ∧ (r.drop d.length).head? = some '.' ∧
    (let r2 := (r.drop (d.length + 1)).dropWhile isWS
     isPrefixOfB (str "**") r2 = true ∧
     (let t := (r2.drop 2).takeWhile (fun c => c != '*')
      t ≠ [] ∧ isPrefixOfB (str "**") ((r2.drop 2).drop t.length) = true)))

/-- The verb alternatives of the second numbered-steps regex. -/
def numberedVerbs : List Str :=
  [str "locate", str "create", str "add", str "modify", str "update",
   str "insert", str "remove"]

/-- Head test (at a line start: m flag) for
/^\s*\d+\.\s*\*\*(?:Locate|Create|Add|Modify|Update|Insert|Remove)/im. -/
def numberedVerbAt (s : Str) : Bool :=
  let r := s.dropWhile isWS
  let d := r.takeWhile Char.isDigit
  decide (d ≠ [] ∧ (r.drop d.length).head? = some '.' ∧
    (let r2 := (r.drop (d.length + 1)).dropWhile isWS
     isPrefixOfB (str "**") r2 = true ∧
     numberedVerbs.any (fun v => isPrefixCI v (r2.drop 2)) = true))

/-- Scan the line-start positions (position 0 and every position after a
newline) for a head-anchored matcher: the .test of an /m regex whose
pattern starts with ^. -/
def scanLineStartsAux (p : Str → Bool) : Str → Bool → Bool
  | [], _ => false
  | c :: rest, ls => (ls && p (c :: rest)) || scanLineStartsAux p rest (decide (c = '\n'))

/-- Line-start scan from the start of the document. -/
def scanLineStartsB (p : Str → Bool) (content : Str) : Bool :=
  scanLineStartsAux p content true

/-- hasNumberedSteps: either numbered bold at the very start, or a numbered
bold action verb at some line start. -/
def hasNumberedSteps (content : Str) : Bool :=
  numberedBoldAtStart content || scanLineStartsB numberedVerbAt content

/-- Head test for /(CREATE_FILE|EDIT_FILE|RUN_COMMAND):\s*[^\n]+/i: a verb,
a colon, then \s*[^\n]+, which succeeds exactly when some character at or
just past the whitespace run is not a newline — equivalently when dropping
leading newlines leaves the tail nonempty. -/
def simpleFormatAt (s : Str) : Bool :=
  [str "create_file", str "edit_file", str "run_command"].any (fun v =>
    isPrefixCI v s &&
      (let r := s.drop v.length
       decide (r.head? = some ':') &&
         ! ((r.drop 1).dropWhile (fun c => decide (c = '\n'))).isEmpty))

/-- hasSimpleFormat. -/
def hasSimpleFormat (content : Str) : Bool :=
  scanAnyB simpleFormatAt content

/-- Head test for /```\w+\n[\s\S]+?```/: a fence with a nonempty language
word and a nonempty body, so the closing backticks must occur at offset at
least one past the newline. -/
def codeBlockMarkerAt (s : Str) : Bool :=
  isPrefixOfB (str "```") s &&
    (let lang := (s.drop 3).takeWhile isWordChar
     decide (lang ≠ []) &&
       (let r := s.drop (3 + lang.length)
        decide (r.head? = some '\n') &&
          (indexOfStr ((r.drop 1).drop 1) (str "```")).isSome))

/-- hasCodeBlocks. -/
def hasCodeBlocks (content : Str) : Bool :=
  scanAnyB codeBlockMarkerAt content

/-- The PlanDetection format union. -/
inductive PlanFormat
  | teddy_spec
  | simple
deriving DecidableEq, Repr

/-- The PlanDetection result of detectPlanDocument. -/
structure PlanDetection where
  isPlanDocument : Bool
  steps : List PlanStep
  format : Option PlanFormat
deriving DecidableEq, Repr

/-- detectPlanDocument from autonomous.ts.  The !content guard is subsumed
by the length test (an empty string has length 0 < 100).  When the teddy
branch is taken but parses zero steps, control falls through to the simple
branch, exactly as in the source. -/
def detectPlanDocument (content : Str) : PlanDetection :=
  if content.length < 100 then ⟨false, [], none⟩
  else
    let simpleF := hasSimpleFormat content
    let simpleBranch : PlanDetection :=
      if simpleF then
        let steps2 := parseSimplePlanSteps content
        if 0 < steps2.length then ⟨true, steps2, some .simple⟩
        else ⟨false, [], none⟩
      else ⟨false, [], none⟩
    if hasTeddyFormat content ||
        (hasNumberedSteps content && hasCodeBlocks content) then
      let steps := parseTeddySpecSteps content
      if 0 < steps.length then ⟨true, steps, some .teddy_spec⟩
      else simpleBranch
    else simpleBranch

/-- A concrete plan document: one "## Step 1:" section whose body holds a
fenced bash block with exactly two non-comment, non-blank command lines. -/
def c6doc : Str :=
  str "## Step 1: Setup environment\nIntro text.\n```bash\nnpm install\nnpm test\n```\n"

/-! ## Theorems -/

theorem splitOnNl_ne_nil (s : Str) : splitOnNl s ≠ [] := by
  cases s with
  | nil => simp [splitOnNl]
  | cons c rest =>
    simp only [splitOnNl]
    cases splitOnNl rest with
    | nil => simp
    | cons l ls => by_cases h : c = '\n' <;> simp [h]

theorem joinNl_splitOnNl (s : Str) : joinNl (splitOnNl s) = s := by
  induction s with
  | nil => rfl
  | cons c rest ih =>
    simp only [splitOnNl]
    cases hs : splitOnNl rest with
    | nil => exact absurd hs (splitOnNl_ne_nil rest)
    | cons l ls =>
      rw [hs] at ih
      by_cases h : c = '\n'
      · subst h
        simp only [if_pos rfl, joinNl]
        cases ls <;> simpa [joinNl] using ih
      · simp only [if_neg h]
        cases ls <;> simpa [joinNl] using ih

theorem joinNl_append (a b : List Str) (ha : a ≠ []) (hb : b ≠ []) :
    joinNl (a ++ b) = joinNl a ++ '\n' :: joinNl b := by
  induction a with
  | nil => exact absurd rfl ha
  | cons x xs ih =>
    cases xs with
    | nil =>
      cases b with
      | nil => exact absurd rfl hb
      | cons y ys => simp [joinNl]
    | cons x2 xs2 =>
      have h2 := ih (by simp)
      have e : (x :: x2 :: xs2) ++ b = x :: ((x2 :: xs2) ++ b) := rfl
      rw [e]
      have e1 : joinNl (x :: ((x2 :: xs2) ++ b)) =
          x ++ '\n' :: joinNl ((x2 :: xs2) ++ b) := rfl
      have e2 : joinNl (x :: x2 :: xs2) = x ++ '\n' :: joinNl (x2 :: xs2) := rfl
      rw [e1, e2, h2]
      simp

theorem splitOnNl_append_nl (a b : Str) :
    splitOnNl (a ++ '\n' :: b) = splitOnNl a ++ splitOnNl b := by
  induction a with
  | nil =>
    cases hb : splitOnNl b with
    | nil => exact absurd hb (splitOnNl_ne_nil b)
    | cons l ls => simp [splitOnNl, hb]
  | cons c rest ih =>
    simp only [List.cons_append, splitOnNl, ih]
    cases hs : splitOnNl rest with
    | nil => exact absurd hs (splitOnNl_ne_nil rest)
    | cons l ls =>
      cases hb : splitOnNl b with
      | nil => exact absurd hb (splitOnNl_ne_nil b)
      | cons m ms =>
        by_cases h : c = '\n' <;> simp [h, hs, hb, ih]

theorem verifyLoopAux_invariant (results : Nat → AttemptOutcome)
    (fuel : Nat) :
    ∀ attempt execs last stuck,
    attempt + fuel = MAX_VERIFICATION_ATTEMPTS → execs = attempt → stuck < 2 →
    (verifyLoopAux results fuel attempt execs last stuck).executions =
      (verifyLoopAux results fuel attempt execs last stuck).attempt ∧
    (verifyLoopAux results fuel attempt execs last stuck).attempt ≤
      MAX_VERIFICATION_ATTEMPTS ∧
    ((verifyLoopAux results fuel attempt execs last stuck).verificationPassed =
        true ∨
      (verifyLoopAux results fuel attempt execs last stuck).attempt =
        MAX_VERIFICATION_ATTEMPTS ∨
      (verifyLoopAux results fuel attempt execs last stuck).stuckCount = 2) := by
  induction fuel with
  | zero =>
    intro attempt execs last stuck hf he _
    simp only [verifyLoopAux]
    omega
  | succ n ih =>
    intro attempt execs last stuck hf he hst
    simp only [verifyLoopAux]
    cases results (attempt + 1) with
    | passed =>
      exact ⟨by dsimp only; omega, by dsimp only; omega, Or.inl rfl⟩
    | failed c =>
      dsimp only
      set s' := if failedGe c last = true then stuck + 1 else 0 with hs'
      have hs'le : s' ≤ stuck + 1 := by rw [hs']; split <;> omega
      by_cases hstop : attempt + 1 ≥ MAX_VERIFICATION_ATTEMPTS ∨ s' ≥ 2
      · rw [if_pos hstop]
        refine ⟨by dsimp only; omega, by dsimp only; omega, ?_⟩
        rcases hstop with h10 | hs2
        · right; left; dsimp only; omega
        · right; right; dsimp only; omega
      · rw [if_neg hstop]
        push_neg at hstop
        exact ih (attempt + 1) (execs + 1) (some c) s'
          (by omega) (by omega) (by omega)

/-- C1: every call of executeStepsWithVerification invokes executeSteps at
most MAX_VERIFICATION_ATTEMPTS = 10 times (exactly once per attempt), and
whenever the loop exits without verificationPassed (the give-up path), at the
exit either the attempt counter has reached 10 or stuckCount has just reached
2, i.e. the failing-criteria count failed to strictly decrease on two
consecutive attempts; the loop breaks at the first attempt where either
condition holds, so stuckCount never exceeds 2. -/
theorem c1_verification_retry_ceiling (results : Nat → AttemptOutcome) :
    (executeStepsWithVerificationLoop results).executions ≤
      MAX_VERIFICATION_ATTEMPTS ∧
    (executeStepsWithVerificationLoop results).executions =
      (executeStepsWithVerificationLoop results).attempt ∧
    ((executeStepsWithVerificationLoop results).verificationPassed = true ∨
      (executeStepsWithVerificationLoop results).attempt =
        MAX_VERIFICATION_ATTEMPTS ∨
      (executeStepsWithVerificationLoop results).stuckCount = 2) := by
  have h := verifyLoopAux_invariant results MAX_VERIFICATION_ATTEMPTS 0 0 none 0
    (by omega) rfl (by omega)
  exact ⟨h.1 ▸ h.2.1, h.1, h.2.2⟩

/-- Witness for C1 at a concrete oracle: a verification history that fails
with 3, 3, 3 failing criteria gets stuck and gives up after 3 executions. -/
theorem c1_verification_retry_ceiling_witness :
    (executeStepsWithVerificationLoop (fun _ => .failed 3)).executions ≤
      MAX_VERIFICATION_ATTEMPTS ∧
    (executeStepsWithVerificationLoop (fun _ => .failed 3)).executions =
      (executeStepsWithVerificationLoop (fun _ => .failed 3)).attempt ∧
    ((executeStepsWithVerificationLoop
        (fun _ => .failed 3)).verificationPassed = true ∨
      (executeStepsWithVerificationLoop (fun _ => .failed 3)).attempt =
        MAX_VERIFICATION_ATTEMPTS ∨
      (executeStepsWithVerificationLoop (fun _ => .failed 3)).stuckCount = 2) :=
  c1_verification_retry_ceiling (fun _ => .failed 3)

/-- C8: for a message whose content is a parts array, if exactly one text
fragment is present it becomes the instruction with no attached context
(contextContent empty, fullContent the same fragment, so the one fragment
serves as both roles); with two or more fragments, contextContent is all
fragments but the last joined with blank lines, and userInstruction is the
last fragment alone. -/
theorem c8_extract_text_content (parts : List MessagePart) (t : Str)
    (ts : List Str) :
    (parts.filterMap textOfPart = [t] →
      extractTextContent ⟨.ofParts parts⟩ = ⟨[], t, t⟩) ∧
    (parts.filterMap textOfPart = ts → 2 ≤ ts.length →
      extractTextContent ⟨.ofParts parts⟩ =
        ⟨joinBlank ts.dropLast, ts.getLastD [], joinBlank ts⟩) := by
  constructor
  · intro h
    simp [extractTextContent, h]
  · intro h hlen
    match ts, hlen with
    | t1 :: t2 :: rest, _ =>
      simp [extractTextContent, h]

/-- Witness for C8 on a concrete three-fragment message and a concrete
one-fragment message. -/
theorem c8_extract_text_content_witness :
    extractTextContent ⟨.ofParts [.text (str "ctx1"), .nonText,
      .text (str "ctx2"), .text (str "do it")]⟩ =
      ⟨str "ctx1" ++ '\n' :: '\n' :: str "ctx2", str "do it",
        str "ctx1" ++ '\n' :: '\n' :: str "ctx2" ++ '\n' :: '\n' ::
          str "do it"⟩ ∧
    extractTextContent ⟨.ofParts [.nonText, .text (str "only ask")]⟩ =
      ⟨[], str "only ask", str "only ask"⟩ := by
  constructor
  · have h := (c8_extract_text_content
      [.text (str "ctx1"), .nonText, .text (str "ctx2"), .text (str "do it")]
      [] [str "ctx1", str "ctx2", str "do it"]).2 (by decide) (by decide)
    rw [h]; decide
  · exact (c8_extract_text_content [.nonText, .text (str "only ask")]
      (str "only ask") []).1 (by decide)

theorem includesStr_ne_nil {t sub : Str} (h : includesStr t sub = true)
    (hsub : sub ≠ []) : t ≠ [] := by
  intro he
  subst he
  simp [includesStr, includesAux, hsub] at h

/-- C2 (counterexample): a create_file step whose target contains the
" - " separator is not skipped — handleCreateFile performs the filesystem
write anyway, because it carries no malformed-target validation. -/
theorem c2_create_file_writes_malformed_target :
    includesStr (str "src/a.ts - entry point") (str " - ") = true ∧
    (handleCreateFile
      ⟨1, str "entry point", .create_file,
        some (str "src/a.ts - entry point"), none⟩
      (str "console.log(1);") (str "/w") []).1 =
      [(str "/w/src/a.ts - entry point", str "console.log(1);")] := by
  constructor
  · decide
  · decide

/-- C2 (amended): for insert_code and edit_file steps, a target containing
" - " or longer than 200 characters causes the step to be skipped with the
malformed-path diagnostic and no filesystem write; handleCreateFile,
however, has no such validation (see the counterexample). -/
theorem c2_malformed_target_skip (step : PlanStep)
    (rootDir llm target cb : Str) (fs : FS)
    (ht : step.target = some target) (hcb : step.codeBlock = some cb)
    (hcbne : cb ≠ [])
    (hbad : includesStr target (str " - ") = true ∨ 200 < target.length) :
    (handleInsertCode step rootDir fs).1 = fs ∧
    str "This appears to be a malformed path. Skipping step." ∈
      (handleInsertCode step rootDir fs).2 ∧
    (handleEditFile step llm rootDir fs).1 = fs ∧
    str "This appears to be a malformed path. Skipping step." ∈
      (handleEditFile step llm rootDir fs).2 := by
  have htne : target ≠ [] := by
    rcases hbad with h | h
    · exact includesStr_ne_nil h (by decide)
    · intro he; subst he; simp at h
  have hcond :
      (includesStr target (str " - ") || decide (200 < target.length)) =
        true := by
    rcases hbad with h | h
    · simp [h]
    · simp [h]
  refine ⟨?_, ?_, ?_, ?_⟩
  · simp only [handleInsertCode, ht, hcb]
    simp [htne, hcbne, hcond]
  · simp only [handleInsertCode, ht, hcb]
    simp [htne, hcbne, hcond]
  · simp only [handleEditFile, ht]
    simp [htne, hcond]
  · simp only [handleEditFile, ht]
    simp [htne, hcond]

/-- Witness for C2 (amended) at a concrete malformed step. -/
theorem c2_malformed_target_skip_witness :
    (handleInsertCode
      ⟨1, str "add code", .insert_code,
        some (str "src/a.ts - entry point"), some (str "x()")⟩
      (str "/w") []).1 = [] ∧
    str "This appears to be a malformed path. Skipping step." ∈
      (handleInsertCode
        ⟨1, str "add code", .insert_code,
          some (str "src/a.ts - entry point"), some (str "x()")⟩
        (str "/w") []).2 ∧
    (handleEditFile
      ⟨1, str "add code", .insert_code,
        some (str "src/a.ts - entry point"), some (str "x()")⟩
      (str "new content") (str "/w") []).1 = [] ∧
    str "This appears to be a malformed path. Skipping step." ∈
      (handleEditFile
        ⟨1, str "add code", .insert_code,
          some (str "src/a.ts - entry point"), some (str "x()")⟩
        (str "new content") (str "/w") []).2 :=
  c2_malformed_target_skip
    ⟨1, str "add code", .insert_code,
      some (str "src/a.ts - entry point"), some (str "x()")⟩
    (str "/w") (str "new content") (str "src/a.ts - entry point")
    (str "x()") [] rfl rfl (by decide) (Or.inl (by decide))

/-- C3: for an edit_file step whose valid target exists in the workspace,
a fence-stripped completion shorter than 10 characters performs no
writeFile: the filesystem is unchanged, the target still holds its original
content, and the too-short warning is emitted. -/
theorem c3_edit_file_short_completion_keeps_original (step : PlanStep)
    (llm rootDir target orig : Str) (fs : FS)
    (ht : step.target = some target) (htne : target ≠ [])
    (hsep : includesStr target (str " - ") = false)
    (hlen : target.length ≤ 200)
    (hexists : fsRead fs (rootDir ++ '/' :: target) = some orig)
    (hshort : (cleanCodeContent llm).length < 10) :
    (handleEditFile step llm rootDir fs).1 = fs ∧
    fsRead (handleEditFile step llm rootDir fs).1 (rootDir ++ '/' :: target) =
      some orig ∧
    str "⚠️ Generated content too short, keeping original file" ∈
      (handleEditFile step llm rootDir fs).2 := by
  have hcond :
      (includesStr target (str " - ") || decide (200 < target.length)) =
        false := by
    simp [hsep]; omega
  have hmain : handleEditFile step llm rootDir fs =
      (fs, [str "⚠️ Generated content too short, keeping original file"]) := by
    simp only [handleEditFile, ht]
    simp [htne, hcond, hexists, hshort]
  refine ⟨by rw [hmain], ?_, by rw [hmain]; simp⟩
  rw [hmain]
  exact hexists

/-- Witness for C3: a two-character completion against an existing file. -/
theorem c3_edit_file_short_completion_witness :
    (handleEditFile
      ⟨1, str "fix the bug", .edit_file, some (str "src/a.ts"), none⟩
      (str "hi") (str "/w")
      [(str "/w/src/a.ts", str "original content here")]).1 =
      [(str "/w/src/a.ts", str "original content here")] ∧
    fsRead
      (handleEditFile
        ⟨1, str "fix the bug", .edit_file, some (str "src/a.ts"), none⟩
        (str "hi") (str "/w")
        [(str "/w/src/a.ts", str "original content here")]).1
      (str "/w" ++ '/' :: str "src/a.ts") =
      some (str "original content here") ∧
    str "⚠️ Generated content too short, keeping original file" ∈
      (handleEditFile
        ⟨1, str "fix the bug", .edit_file, some (str "src/a.ts"), none⟩
        (str "hi") (str "/w")
        [(str "/w/src/a.ts", str "original content here")]).2 :=
  c3_edit_file_short_completion_keeps_original
    ⟨1, str "fix the bug", .edit_file, some (str "src/a.ts"), none⟩
    (str "hi") (str "/w") (str "src/a.ts") (str "original content here")
    [(str "/w/src/a.ts", str "original content here")]
    rfl (by decide) (by decide) (by decide) (by decide) (by decide)

theorem fsRead_fsWrite (fs : FS) (path content : Str) :
    fsRead (fsWrite fs path content) path = some content := by
  induction fs with
  | nil => simp [fsWrite, fsRead]
  | cons pc rest ih =>
    obtain ⟨p, c⟩ := pc
    by_cases h : p = path <;> simp [fsWrite, fsRead, h, ih]

theorem joinNl_cons (l : Str) (ls : List Str) (h : ls ≠ []) :
    joinNl (l :: ls) = l ++ '\n' :: joinNl ls := by
  cases ls with
  | nil => exact absurd rfl h
  | cons a as => rfl

/-- The line-number branch of the locator splices the code block in as one
array element and rejoins; the result is still a one-point splice of the
original text. -/
theorem joinNl_splice (existing cb : Str) (idx : Nat) :
    ∃ p s g1 g2 : Str, p ++ s = existing ∧
      joinNl ((splitOnNl existing).take idx ++
        cb :: (splitOnNl existing).drop idx) = p ++ g1 ++ cb ++ g2 ++ s ∧
      (∀ c ∈ g1, c = '\n') ∧ (∀ c ∈ g2, c = '\n') := by
  cases hA : (splitOnNl existing).take idx with
  | nil =>
    have hidx : (splitOnNl existing).drop idx = splitOnNl existing := by
      rcases List.take_eq_nil_iff.mp hA with h | h
      · simp [h]
      · exact absurd h (splitOnNl_ne_nil existing)
    refine ⟨[], existing, [], ['\n'], by simp, ?_, by simp, by simp⟩
    rw [hidx, List.nil_append,
      joinNl_cons cb (splitOnNl existing) (splitOnNl_ne_nil existing),
      joinNl_splitOnNl]
    simp
  | cons a as =>
    cases hB : (splitOnNl existing).drop idx with
    | nil =>
      have hAs : a :: as = splitOnNl existing := by
        rw [← hA]
        exact List.take_of_length_le (List.drop_eq_nil_iff.mp hB)
      refine ⟨existing, [], ['\n'], [], by simp, ?_, by simp, by simp⟩
      show joinNl ((a :: as) ++ [cb]) = _
      rw [joinNl_append (a :: as) [cb] (by simp) (by simp), hAs,
        joinNl_splitOnNl]
      simp [joinNl]
    | cons b bs =>
      refine ⟨joinNl (a :: as) ++ ['\n'], joinNl (b :: bs), [], ['\n'],
        ?_, ?_, by simp, by simp⟩
      · have hsplit : (a :: as) ++ (b :: bs) = splitOnNl existing := by
          rw [← hA, ← hB]; exact List.take_append_drop idx _
        rw [List.append_assoc, List.singleton_append,
          ← joinNl_append (a :: as) (b :: bs) (by simp) (by simp), hsplit,
          joinNl_splitOnNl]
      · show joinNl ((a :: as) ++ cb :: b :: bs) = _
        rw [joinNl_append (a :: as) (cb :: b :: bs) (by simp) (by simp),
          joinNl_cons cb (b :: bs) (by simp)]
        simp

/-- Every branch of the insertion locator produces a one-point splice of
the original content around the code block, with only newline characters as
glue. -/
theorem insertCode_splice (existing desc cb : Str) :
    ∃ p s g1 g2 : Str, p ++ s = existing ∧
      (insertCodeIntoContent existing desc cb).1 = p ++ g1 ++ cb ++ g2 ++ s ∧
      (∀ c ∈ g1, c = '\n') ∧ (∀ c ∈ g2, c = '\n') := by
  have happend : ∀ gl : Unit,
      ∃ p s g1 g2 : Str, p ++ s = existing ∧
        existing ++ '\n' :: '\n' :: cb = p ++ g1 ++ cb ++ g2 ++ s ∧
        (∀ c ∈ g1, c = '\n') ∧ (∀ c ∈ g2, c = '\n') := by
    intro _
    exact ⟨existing, [], ['\n', '\n'], [], by simp, by simp, by simp, by simp⟩
  have hprepend :
      ∃ p s g1 g2 : Str, p ++ s = existing ∧
        cb ++ '\n' :: '\n' :: existing = p ++ g1 ++ cb ++ g2 ++ s ∧
        (∀ c ∈ g1, c = '\n') ∧ (∀ c ∈ g2, c = '\n') :=
    ⟨[], existing, [], ['\n', '\n'], by simp, by simp, by simp, by simp⟩
  have hmid : ∀ (i : Nat) (g1 g2 : Str), (∀ c ∈ g1, c = '\n') →
      (∀ c ∈ g2, c = '\n') →
      ∃ p s g1' g2' : Str, p ++ s = existing ∧
        existing.take i ++ g1 ++ cb ++ g2 ++ existing.drop i =
          p ++ g1' ++ cb ++ g2' ++ s ∧
        (∀ c ∈ g1', c = '\n') ∧ (∀ c ∈ g2', c = '\n') := by
    intro i g1 g2 hg1 hg2
    exact ⟨existing.take i, existing.drop i, g1, g2,
      List.take_append_drop i existing, rfl, hg1, hg2⟩
  unfold insertCodeIntoContent
  split
  · exact hprepend
  split
  · split
    · next idx len heq =>
      have := hmid (idx + len) ['\n'] ['\n'] (by simp) (by simp)
      simpa using this
    · exact hprepend
  split
  · next lineNum heq =>
    exact joinNl_splice existing cb _
  split
  · next methodName heq =>
    split
    · next pos len hp =>
      have := hmid (pos + len) ['\n'] [] (by simp) (by simp)
      simpa using this
    split
    · next pos len hp =>
      have := hmid (pos + len) ['\n'] [] (by simp) (by simp)
      simpa using this
    split
    · next pos len hp =>
      have := hmid (pos + len) ['\n'] [] (by simp) (by simp)
      simpa using this
    split
    · next simpleIdx hp =>
      split
      · next braceAfter hb =>
        have := hmid (braceAfter + 1) ['\n'] [] (by simp) (by simp)
        simpa using this
      · exact happend ()
    · exact happend ()
  · next hline hmethod =>
    split
    · next afterName heq =>
      split
      · next idx hp =>
        split
        · next startBrace hb =>
          have := hmid
            (match braceScanAux (existing.drop startBrace) 0 0 with
              | some rel => startBrace + rel
              | none => startBrace) ['\n', '\n'] [] (by simp) (by simp)
          simpa using this
        · exact happend ()
      · exact happend ()
    · exact happend ()

/-- C9: for an insert_code step with a valid target, a non-empty code
block, and an existing target file, the file content after the handler is
the original content with the code block spliced in at exactly one
position: a prefix and the matching suffix of the original text surround
the inserted fragment (with only newline glue), under every locator
strategy. -/
theorem c9_insert_code_splices_original (step : PlanStep)
    (rootDir target cb existing : Str) (fs : FS)
    (ht : step.target = some target) (hcb : step.codeBlock = some cb)
    (htne : target ≠ []) (hcbne : cb ≠ [])
    (hvalid : (includesStr target (str " - ") ||
      decide (200 < target.length)) = false)
    (hexists : fsRead fs (rootDir ++ '/' :: target) = some existing) :
    ∃ p s g1 g2 : Str, p ++ s = existing ∧
      fsRead (handleInsertCode step rootDir fs).1 (rootDir ++ '/' :: target) =
        some (p ++ g1 ++ cb ++ g2 ++ s) ∧
      (∀ c ∈ g1, c = '\n') ∧ (∀ c ∈ g2, c = '\n') := by
  obtain ⟨p, s, g1, g2, hps, heq, hg1, hg2⟩ :=
    insertCode_splice existing (toLowerStr step.description) cb
  refine ⟨p, s, g1, g2, hps, ?_, hg1, hg2⟩
  simp only [handleInsertCode, ht, hcb]
  simp [htne, hcbne, hvalid, hexists, fsRead_fsWrite, heq]

/-- Witness for C9: inserting a helper into a two-line file with an
append-style description. -/
theorem c9_insert_code_splices_original_witness :
    ∃ p s g1 g2 : Str, p ++ s = str "line1()\nline2()" ∧
      fsRead (handleInsertCode
        ⟨1, str "append this helper", .insert_code, some (str "a.ts"),
          some (str "helper()")⟩
        (str "/w") [(str "/w/a.ts", str "line1()\nline2()")]).1
        (str "/w" ++ '/' :: str "a.ts") =
        some (p ++ g1 ++ str "helper()" ++ g2 ++ s) ∧
      (∀ c ∈ g1, c = '\n') ∧ (∀ c ∈ g2, c = '\n') :=
  c9_insert_code_splices_original
    ⟨1, str "append this helper", .insert_code, some (str "a.ts"),
      some (str "helper()")⟩
    (str "/w") (str "a.ts") (str "helper()") (str "line1()\nline2()")
    [(str "/w/a.ts", str "line1()\nline2()")]
    rfl rfl (by decide) (by decide) (by decide) (by decide)

theorem netBrace_cons (c : Char) (s : Str) :
    netBrace (c :: s) =
      (if c = '{' then 1 else if c = '}' then (-1 : Int) else 0) +
        netBrace s := by
  by_cases h1 : c = '{'
  · subst h1
    simp [netBrace, List.count_cons]
    ring
  · by_cases h2 : c = '}'
    · subst h2
      simp [netBrace, List.count_cons]
      ring
    · simp [netBrace, List.count_cons, h1, h2]

theorem netBrace_append (a b : Str) :
    netBrace (a ++ b) = netBrace a + netBrace b := by
  simp [netBrace, List.count_append]
  ring

theorem getLast?_cons_ne_nil {α : Type} (a : α) {l : List α} (h : l ≠ []) :
    (a :: l).getLast? = l.getLast? := by
  cases l with
  | nil => exact absurd rfl h
  | cons b bs => exact List.getLast?_cons_cons

theorem head?_take_pos {l : Str} {n : Nat} (hn : n ≠ 0) :
    (l.take n).head? = l.head? := by
  cases l with
  | nil => simp
  | cons a as =>
    cases n with
    | zero => exact absurd rfl hn
    | succ n => simp

theorem indexOfAux_single_head {c : Char} : ∀ {l : Str} {j : Nat},
    indexOfAux [c] l = some j → (l.drop j).head? = some c := by
  intro l
  induction l with
  | nil => intro j h; simp [indexOfAux] at h
  | cons a rest ih =>
    intro j h
    simp only [indexOfAux] at h
    by_cases hp : isPrefixOfB [c] (a :: rest) = true
    · rw [if_pos hp] at h
      injection h with h'
      subst h'
      have hca : c = a := by simpa [isPrefixOfB] using hp
      simp [hca]
    · rw [if_neg hp] at h
      cases hrec : indexOfAux [c] rest with
      | none => rw [hrec] at h; simp at h
      | some j2 =>
        rw [hrec] at h
        simp only [Option.map_some'] at h
        injection h with h'
        subst h'
        exact ih hrec

theorem indexOfCharFrom_head {s : Str} {c : Char} {i j : Nat}
    (h : indexOfCharFrom s c i = some j) :
    (s.drop j).head? = some c ∧ i ≤ j := by
  unfold indexOfCharFrom at h
  cases hrec : indexOfAux [c] (s.drop i) with
  | none => rw [hrec] at h; simp at h
  | some j2 =>
    rw [hrec] at h
    simp only [Option.map_some'] at h
    injection h with h'
    subst h'
    have hh := indexOfAux_single_head hrec
    rw [List.drop_drop] at hh
    constructor
    · rw [Nat.add_comm j2 i]
      exact hh
    · omega

/-- Full specification of the balanced-brace scan: a successful scan from a
positive running count consumes a nonempty segment whose net balance repays
the count exactly, whose last character is the closing brace, and along which
the running count stays positive. -/
theorem braceScanAux_spec : ∀ (s : Str) (i : Nat) (count : Int) (m : Nat),
    0 < count → braceScanAux s i count = some m →
    ∃ d : Nat, m = i + d ∧ 0 < d ∧ d ≤ s.length ∧
      netBrace (s.take d) = -count ∧
      (s.take d).getLast? = some '}' ∧
      ∀ k, k < d → 0 < count + netBrace (s.take k) := by
  intro s
  induction s with
  | nil => intro i count m hc h; simp [braceScanAux] at h
  | cons c rest ih =>
    intro i count m hc h
    simp only [braceScanAux] at h
    by_cases h0 :
        (if c = '{' then count + 1 else if c = '}' then count - 1 else count) =
          0
    · rw [if_pos h0] at h
      injection h with h'
      by_cases hc1 : c = '{'
      · rw [if_pos hc1] at h0; omega
      by_cases hc2 : c = '}'
      · rw [if_neg hc1, if_pos hc2] at h0
        subst hc2
        refine ⟨1, by omega, by omega, by simp, ?_, by simp, ?_⟩
        · simp [netBrace]
          omega
        · intro k hk
          have hk0 : k = 0 := by omega
          subst hk0
          simpa [netBrace] using hc
      · rw [if_neg hc1, if_neg hc2] at h0; omega
    · rw [if_neg h0] at h
      have hdelta :
          (if c = '{' then count + 1 else if c = '}' then count - 1
            else count) =
          count + (if c = '{' then 1 else if c = '}' then (-1 : Int) else 0) := by
        by_cases hc1 : c = '{' <;> by_cases hc2 : c = '}' <;>
          simp [hc1, hc2] <;> try ring
      set delta := (if c = '{' then (1 : Int) else if c = '}' then (-1 : Int)
        else 0) with hdel
      have hd1 : delta = 1 ∨ delta = -1 ∨ delta = 0 := by
        rw [hdel]
        by_cases hc1 : c = '{' <;> by_cases hc2 : c = '}' <;> simp [hc1, hc2]
      have hne : count + delta ≠ 0 := by rw [← hdelta]; exact h0
      have hpos : 0 < count + delta := by rcases hd1 with h | h | h <;> omega
      rw [hdelta] at h
      obtain ⟨d, hm, hd, hlen, hnet, hlast, hpref⟩ :=
        ih (i + 1) (count + delta) m hpos h
      refine ⟨d + 1, by omega, by omega, by simp; omega, ?_, ?_, ?_⟩
      · rw [List.take_succ_cons, netBrace_cons, ← hdel]
        omega
      · rw [List.take_succ_cons]
        have hlq : (rest.take d).length = d := by
          rw [List.length_take]
          omega
        have htne : rest.take d ≠ [] := by
          intro he
          rw [he] at hlq
          simp at hlq
          omega
        rw [getLast?_cons_ne_nil c htne]
        exact hlast
      · intro k hk
        cases k with
        | zero =>
          simpa [netBrace] using hc
        | succ k2 =>
          rw [List.take_succ_cons, netBrace_cons, ← hdel]
          have := hpref k2 (by omega)
          omega

/-- C4: in the afterMatch branch of the locator (description naming an
"after <name>" reference, not captured by any earlier strategy), when the
name occurs in the file, an opening brace follows it, and the brace scan
finds balance, the insertion point sb + rel sits immediately after the
matching closing brace of the block opened at the first brace at or after
the name: the spanned segment starts with that brace, ends with the closing
brace, has zero net balance, stays positive on proper prefixes, and the
whole insertion changes the file's net brace balance by exactly the code
block's own balance (so a balanced fragment preserves the balance). -/
theorem c4_after_name_balanced_insertion (existing desc cb name : Str)
    (idx sb rel : Nat)
    (h1 : (includesStr desc (str "at the top") ||
      includesStr desc (str "at the beginning") ||
      includesStr desc (str "first line")) = false)
    (h2 : (includesStr desc (str "after import") ||
      includesStr desc (str "after the import")) = false)
    (h3 : lineNumSearch desc = none)
    (h4 : methodMatchSearch desc = none)
    (h5 : afterMatchSearch desc = some name)
    (h6 : indexOfStr existing name = some idx)
    (h7 : indexOfCharFrom existing '{' idx = some sb)
    (h8 : braceScanAux (existing.drop sb) 0 0 = some rel) :
    (insertCodeIntoContent existing desc cb).1 =
      existing.take (sb + rel) ++ '\n' :: '\n' :: cb ++
        existing.drop (sb + rel) ∧
    idx ≤ sb ∧
    ((existing.drop sb).take rel).head? = some '{' ∧
    ((existing.drop sb).take rel).getLast? = some '}' ∧
    netBrace ((existing.drop sb).take rel) = 0 ∧
    (∀ k, 0 < k → k < rel → 0 < netBrace ((existing.drop sb).take k)) ∧
    netBrace (insertCodeIntoContent existing desc cb).1 =
      netBrace existing + netBrace cb := by
  have h8' := h8
  obtain ⟨hhead, hile⟩ := indexOfCharFrom_head h7
  have hresult : (insertCodeIntoContent existing desc cb).1 =
      existing.take (sb + rel) ++ '\n' :: '\n' :: cb ++
        existing.drop (sb + rel) := by
    simp [insertCodeIntoContent, h1, h2, h3, h4, h5, h6, h7, h8']
  cases hdrop : existing.drop sb with
  | nil => rw [hdrop] at hhead; simp at hhead
  | cons c0 cs =>
    rw [hdrop] at hhead
    simp at hhead
    subst hhead
    rw [hdrop] at h8
    rw [show braceScanAux ('{' :: cs) 0 0 = braceScanAux cs 1 1 from by
      simp [braceScanAux]] at h8
    obtain ⟨d, hm, hd, hlen, hnet, hlast, hpref⟩ :=
      braceScanAux_spec cs 1 1 rel (by decide) h8
    have hm' : rel = d + 1 := by omega
    have hopen : (if '{' = '{' then (1 : Int) else if '{' = '}' then -1
      else 0) = 1 := by decide
    refine ⟨hresult, hile, ?_, ?_, ?_, ?_, ?_⟩
    · rw [head?_take_pos (show rel ≠ 0 by omega)]
      simp
    · rw [hm', List.take_succ_cons]
      have hlq : (cs.take d).length = d := by
        rw [List.length_take]
        omega
      have htne : cs.take d ≠ [] := by
        intro he
        rw [he] at hlq
        simp at hlq
        omega
      rw [getLast?_cons_ne_nil '{' htne]
      exact hlast
    · rw [hm', List.take_succ_cons, netBrace_cons, hopen]
      omega
    · intro k hk0 hk
      cases k with
      | zero => omega
      | succ k2 =>
        rw [List.take_succ_cons, netBrace_cons, hopen]
        have := hpref k2 (by omega)
        omega
    · rw [hresult]
      have hsplit := netBrace_append (existing.take (sb + rel))
        (existing.drop (sb + rel))
      rw [List.take_append_drop] at hsplit
      have hnl : (if '\n' = '{' then (1 : Int) else if '\n' = '}' then -1
        else 0) = 0 := by decide
      rw [netBrace_append, netBrace_append, netBrace_cons, netBrace_cons, hnl]
      omega

/-- Witness for C4: inserting after the block of initcfg in a file with
nested braces; the scan skips the inner block and lands after the outer
closing brace. -/
theorem c4_after_name_balanced_insertion_witness :
    (insertCodeIntoContent (str "fn initcfg() { a { b } c }\nrest()")
      (str "after initcfg") (str "bar()")).1 =
      (str "fn initcfg() { a { b } c }\nrest()").take (13 + 13) ++
        '\n' :: '\n' :: str "bar()" ++
        (str "fn initcfg() { a { b } c }\nrest()").drop (13 + 13) ∧
    3 ≤ 13 ∧
    (((str "fn initcfg() { a { b } c }\nrest()").drop 13).take 13).head? =
      some '{' ∧
    (((str "fn initcfg() { a { b } c }\nrest()").drop 13).take 13).getLast? =
      some '}' ∧
    netBrace (((str "fn initcfg() { a { b } c }\nrest()").drop 13).take 13) =
      0 ∧
    (∀ k, 0 < k → k < 13 →
      0 < netBrace
        (((str "fn initcfg() { a { b } c }\nrest()").drop 13).take k)) ∧
    netBrace (insertCodeIntoContent (str "fn initcfg() { a { b } c }\nrest()")
        (str "after initcfg") (str "bar()")).1 =
      netBrace (str "fn initcfg() { a { b } c }\nrest()") +
        netBrace (str "bar()") :=
  c4_after_name_balanced_insertion
    (str "fn initcfg() { a { b } c }\nrest()") (str "after initcfg")
    (str "bar()") (str "initcfg") 3 13 13
    (by decide) (by decide) (by decide) (by decide) (by decide) (by decide)
    (by decide) (by decide)

theorem importLineLen_bounds {s : Str} {n : Nat}
    (h : importLineLen s = some n) : 0 < n ∧ n ≤ s.length := by
  simp only [importLineLen] at h
  split at h
  · split at h
    · injection h with h'
      omega
    · exact absurd h (by simp)
  · exact absurd h (by simp)

theorem importRunLenAux_congr :
    ∀ (f1 f2 : Nat) (s : Str), s.length ≤ f1 → s.length ≤ f2 →
      importRunLenAux f1 s = importRunLenAux f2 s := by
  intro f1
  induction f1 with
  | zero =>
    intro f2 s h1 _
    have hs : s = [] := by
      cases s with
      | nil => rfl
      | cons a as => simp at h1
    subst hs
    cases f2 with
    | zero => rfl
    | succ f2 =>
      have h0 : importLineLen [] = none := by decide
      simp [importRunLenAux, h0]
  | succ f1 ih =>
    intro f2 s h1 h2
    cases f2 with
    | zero =>
      have hs : s = [] := by
        cases s with
        | nil => rfl
        | cons a as => simp at h2
      subst hs
      have h0 : importLineLen [] = none := by decide
      simp [importRunLenAux, h0]
    | succ f2 =>
      simp only [importRunLenAux]
      cases hl : importLineLen s with
      | none => rfl
      | some n =>
        have hb := importLineLen_bounds hl
        dsimp only
        rw [ih f2 (s.drop n) (by simp; omega) (by simp; omega)]

theorem importRunLen_unfold (s : Str) :
    importRunLen s =
      match importLineLen s with
      | none => 0
      | some n => n + importRunLen (s.drop n) := by
  unfold importRunLen
  cases hlen : s.length with
  | zero =>
    have hs : s = [] := List.length_eq_zero.mp hlen
    subst hs
    have h0 : importLineLen [] = none := by decide
    simp [importRunLenAux, h0]
  | succ m =>
    simp only [importRunLenAux]
    cases hl : importLineLen s with
    | none => rfl
    | some n =>
      have hb := importLineLen_bounds hl
      dsimp only
      rw [importRunLenAux_congr m (s.drop n).length (s.drop n)
        (by simp; omega) (le_refl _)]

theorem importRunLen_max : ∀ (fuel : Nat) (s : Str), s.length ≤ fuel →
    importLineLen (s.drop (importRunLen s)) = none := by
  intro fuel
  induction fuel with
  | zero =>
    intro s h
    have hs : s = [] := by
      cases s with
      | nil => rfl
      | cons a as => simp at h
    subst hs
    decide
  | succ f ih =>
    intro s h
    rw [importRunLen_unfold]
    cases hl : importLineLen s with
    | none => simpa using hl
    | some n =>
      have hb := importLineLen_bounds hl
      dsimp only
      rw [← List.drop_drop]
      exact ih (s.drop n) (by simp; omega)

theorem findImportRun_zero {s : Str} (h : 0 < importRunLen s) :
    findImportRun s = some (0, importRunLen s) := by
  unfold findImportRun
  cases hlen : s.length with
  | zero =>
    have hs : s = [] := List.length_eq_zero.mp hlen
    subst hs
    simp [importRunLen, importRunLenAux] at h
  | succ m =>
    simp only [findImportRunAux]
    rw [if_pos h]

theorem findImportRun_none (s : Str)
    (h : ∀ i, i ≤ s.length → importLineLen (s.drop i) = none) :
    findImportRun s = none := by
  suffices haux : ∀ fuel pos, findImportRunAux fuel (s.drop pos) pos = none by
    have h0 := haux s.length 0
    simpa [findImportRun] using h0
  intro fuel
  induction fuel with
  | zero => intro pos; rfl
  | succ f ih =>
    intro pos
    simp only [findImportRunAux]
    have hrun : importRunLen (s.drop pos) = 0 := by
      rw [importRunLen_unfold]
      by_cases hp : pos ≤ s.length
      · rw [h pos hp]
      · have hnil : s.drop pos = [] := by
          apply List.drop_eq_nil_iff.mpr
          omega
        rw [hnil]
        have h0 : importLineLen [] = none := by decide
        rw [h0]
    rw [hrun]
    simp only [Nat.lt_irrefl, if_false]
    cases hseek : seekCharLen '\n' (s.drop pos) with
    | none => rfl
    | some k =>
      dsimp only
      rw [List.drop_drop]
      exact ih (pos + k)

theorem splitOnNl_cons_nl (s : Str) :
    splitOnNl ('\n' :: s) = [] :: splitOnNl s := by
  simp only [splitOnNl]
  cases hs : splitOnNl s with
  | nil => exact absurd hs (splitOnNl_ne_nil s)
  | cons l ls => simp

/-- C5 (counterexample): on the file "import a\nimport b" (whose two-line
run of imports reaches end-of-file without a trailing newline) and an
after-imports description, the code lands inside the run — between the two
lines of the run — not immediately after it, because the regex only matches
newline-terminated lines. -/
theorem c5_after_imports_counterexample :
    (insertCodeIntoContent (str "import a\nimport b")
      (str "insert after imports") (str "X")).1 =
      str "import a\n\nX\nimport b" ∧
    isPrefixOfB (str "import a\nimport b")
      ((insertCodeIntoContent (str "import a\nimport b")
        (str "insert after imports") (str "X")).1) = false := by
  constructor
  · decide
  · decide

/-- C5 (amended): for an after-imports description (not captured by the
top-of-file strategy): if the file starts with a newline-terminated
line of import style, the block is inserted immediately after the longest
initial run of newline-terminated import-style lines (an unterminated final
line of import style is not in the matched run); if no position of the file
starts a newline-terminated import line — in particular when the file has
no import lines at all — the locator falls back to prepending, and when the
inserted code's first line is non-empty it becomes the first non-empty line
of the resulting file. -/
theorem c5_after_imports_insertion (existing desc cb : Str) (m : Nat)
    (l : Str)
    (h1 : (includesStr desc (str "at the top") ||
      includesStr desc (str "at the beginning") ||
      includesStr desc (str "first line")) = false)
    (h2 : (includesStr desc (str "after import") ||
      includesStr desc (str "after the import")) = true) :
    (importLineLen existing = some m →
      (insertCodeIntoContent existing desc cb).1 =
        existing.take (importRunLen existing) ++ '\n' :: cb ++ '\n' ::
          existing.drop (importRunLen existing) ∧
      0 < importRunLen existing ∧
      importLineLen (existing.drop (importRunLen existing)) = none) ∧
    (hasNoImportLine existing = true →
      (insertCodeIntoContent existing desc cb).1 =
        cb ++ '\n' :: '\n' :: existing ∧
      ((splitOnNl cb).head? = some l → l ≠ [] →
        firstNonEmptyLine (insertCodeIntoContent existing desc cb).1 =
          some l)) := by
  constructor
  · intro hline
    have hb := importLineLen_bounds hline
    have hrun : 0 < importRunLen existing := by
      rw [importRunLen_unfold, hline]
      show 0 < m + importRunLen (existing.drop m)
      omega
    have hfind : findImportRun existing = some (0, importRunLen existing) :=
      findImportRun_zero hrun
    refine ⟨?_, hrun, importRunLen_max existing.length existing (le_refl _)⟩
    simp [insertCodeIntoContent, h1, h2, hfind]
  · intro hnone
    have hforall : ∀ i, i ≤ existing.length →
        importLineLen (existing.drop i) = none := by
      intro i hi
      have hx := List.all_eq_true.mp hnone i (List.mem_range.mpr (by omega))
      simpa using hx
    have hfind : findImportRun existing = none :=
      findImportRun_none existing hforall
    have hres : (insertCodeIntoContent existing desc cb).1 =
        cb ++ '\n' :: '\n' :: existing := by
      simp [insertCodeIntoContent, h1, h2, hfind]
    refine ⟨hres, ?_⟩
    intro hhead hlne
    rw [hres]
    unfold firstNonEmptyLine
    have e : (cb ++ '\n' :: '\n' :: existing : Str) =
        cb ++ '\n' :: ('\n' :: existing) := rfl
    rw [e, splitOnNl_append_nl, splitOnNl_cons_nl]
    cases hcb : splitOnNl cb with
    | nil => exact absurd hcb (splitOnNl_ne_nil cb)
    | cons l0 tl =>
      rw [hcb] at hhead
      simp at hhead
      subst hhead
      have hp : (l0 != ([] : Str)) = true := by simpa using hlne
      rw [List.cons_append]
      exact List.find?_cons_of_pos _ hp

/-- Witness for C5 (amended), part (a): a file with a two-line
newline-terminated import run followed by code. -/
theorem c5_after_imports_insertion_witness :
    (insertCodeIntoContent (str "import a\nimport b\ncode()")
      (str "insert after imports") (str "X")).1 =
      str "import a\nimport b\n\nX\ncode()" ∧
    0 < importRunLen (str "import a\nimport b\ncode()") := by
  have h := (c5_after_imports_insertion (str "import a\nimport b\ncode()")
    (str "insert after imports") (str "X") 9 (str "X")
    (by decide) (by decide)).1 (by decide)
  refine ⟨?_, h.2.1⟩
  rw [h.1]
  decide

theorem takeWhile_append_break {p : Char → Bool} :
    ∀ (d : Str) (y : Char) (t : Str), (∀ c ∈ d, p c = true) → p y = false →
      (d ++ y :: t).takeWhile p = d := by
  intro d
  induction d with
  | nil => intro y t _ hy; simp [List.takeWhile_cons, hy]
  | cons a d2 ih =>
    intro y t hall hy
    simp only [List.cons_append, List.takeWhile_cons, hall a (by simp)]
    simp [ih y t (fun c hc => hall c (by simp [hc])) hy]

theorem dropWhile_append_ws {p : Char → Bool} :
    ∀ (w t : Str), (∀ c ∈ w, p c = true) →
      (w ++ t).dropWhile p = t.dropWhile p := by
  intro w
  induction w with
  | nil => intro t _; rfl
  | cons a w2 ih =>
    intro t hall
    simp only [List.cons_append, List.dropWhile_cons, hall a (by simp)]
    exact ih t (fun c hc => hall c (by simp [hc]))

theorem isWS_toLower {c : Char} (h : isWS c = true) : c.toLower = c := by
  simp only [isWS, Bool.or_eq_true, decide_eq_true_eq] at h
  rcases h with ((((h | h) | h) | h) | h) | h <;> subst h <;> decide

theorem verb_head_not_ws {v : Str} (hv : VerbForm v) :
    ∃ v0 vr, v = v0 :: vr ∧ isWS v0 = false := by
  have hx : ∃ c0, (toLowerStr v).head? = some c0 ∧ isWS c0 = false := by
    rcases hv with h | h | h | h <;> rw [h] <;> exact ⟨_, rfl, by decide⟩
  obtain ⟨c0, hc0, hcw⟩ := hx
  cases v with
  | nil => simp [toLowerStr] at hc0
  | cons v0 vr =>
    refine ⟨v0, vr, rfl, ?_⟩
    simp [toLowerStr] at hc0
    by_contra hws
    rw [Bool.not_eq_false] at hws
    have he : c0 = v0 := by rw [← hc0, isWS_toLower hws]
    rw [he, hws] at hcw
    exact absurd hcw (by decide)

theorem take_toLower_head_ne {v0 : Char} (vr tail : Str) (n : Nat)
    (hn : 0 < n) (lit : Str) (c0 : Char) (hlit : lit.head? = some c0)
    (hne : v0.toLower ≠ c0) :
    toLowerStr (((v0 :: vr) ++ tail).take n) ≠ lit := by
  intro heq
  have h1 := congrArg List.head? heq
  cases n with
  | zero => omega
  | succ n =>
    rw [List.cons_append, List.take_succ_cons] at h1
    simp [toLowerStr, hlit] at h1
    exact hne h1

theorem toLower_head_of_eq {v lit : Str} (h : toLowerStr v = lit) {c0 : Char}
    (hl : lit.head? = some c0) :
    ∃ v0 vr, v = v0 :: vr ∧ v0.toLower = c0 := by
  cases v with
  | nil =>
    rw [show toLowerStr [] = [] from rfl] at h
    rw [← h] at hl
    simp at hl
  | cons v0 vr =>
    refine ⟨v0, vr, rfl, ?_⟩
    have h1 := congrArg List.head? h
    simp [toLowerStr, hl] at h1
    exact h1

theorem matchVerb_complete {v : Str} (tail : Str) (hv : VerbForm v) :
    matchVerb (v ++ tail) = some (toLowerStr v, tail) := by
  have hCc : (str "create_file").head? = some 'c' := by decide
  have hEc : (str "edit_file").head? = some 'e' := by decide
  have hRc : (str "run_command").head? = some 'r' := by decide
  have hAc : (str "analyze").head? = some 'a' := by decide
  rcases hv with h | h | h | h
  · obtain ⟨v0, vr, hveq, hv0⟩ := toLower_head_of_eq h hCc
    subst hveq
    have hlen : (v0 :: vr).length = 11 := by
      have hl := congrArg List.length h
      simp [toLowerStr] at hl
      rw [show (str "create_file").length = 11 from rfl] at hl
      simp only [List.length_cons]
      omega
    simp only [matchVerb, simpleVerbs, matchVerbAux]
    rw [if_pos]
    · have e2 : ((v0 :: vr) ++ tail).drop (str "CREATE_FILE").length =
          tail := by
        rw [show (str "CREATE_FILE").length = 11 from rfl, ← hlen,
          List.drop_left]
      have e1 : toLowerStr (str "CREATE_FILE") = toLowerStr (v0 :: vr) := by
        rw [h]; decide
      rw [e1, e2]
    · rw [show (str "CREATE_FILE").length = 11 from rfl, ← hlen,
        List.take_left, h]
      decide
  · obtain ⟨v0, vr, hveq, hv0⟩ := toLower_head_of_eq h hEc
    subst hveq
    have hlen : (v0 :: vr).length = 9 := by
      have hl := congrArg List.length h
      simp [toLowerStr] at hl
      rw [show (str "edit_file").length = 9 from rfl] at hl
      simp only [List.length_cons]
      omega
    simp only [matchVerb, simpleVerbs, matchVerbAux]
    rw [if_neg (take_toLower_head_ne vr tail
      (str "CREATE_FILE").length (by decide)
      (toLowerStr (str "CREATE_FILE")) 'c' (by decide)
      (by rw [hv0]; decide))]
    rw [if_pos]
    · have e2 : ((v0 :: vr) ++ tail).drop (str "EDIT_FILE").length = tail := by
        rw [show (str "EDIT_FILE").length = 9 from rfl, ← hlen, List.drop_left]
      have e1 : toLowerStr (str "EDIT_FILE") = toLowerStr (v0 :: vr) := by
        rw [h]; decide
      rw [e1, e2]
    · rw [show (str "EDIT_FILE").length = 9 from rfl, ← hlen,
        List.take_left, h]
      decide
  · obtain ⟨v0, vr, hveq, hv0⟩ := toLower_head_of_eq h hRc
    subst hveq
    have hlen : (v0 :: vr).length = 11 := by
      have hl := congrArg List.length h
      simp [toLowerStr] at hl
      rw [show (str "run_command").length = 11 from rfl] at hl
      simp only [List.length_cons]
      omega
    simp only [matchVerb, simpleVerbs, matchVerbAux]
    rw [if_neg (take_toLower_head_ne vr tail
      (str "CREATE_FILE").length (by decide)
      (toLowerStr (str "CREATE_FILE")) 'c' (by decide)
      (by rw [hv0]; decide))]
    rw [if_neg (take_toLower_head_ne vr tail
      (str "EDIT_FILE").length (by decide)
      (toLowerStr (str "EDIT_FILE")) 'e' (by decide)
      (by rw [hv0]; decide))]
    rw [if_pos]
    · have e2 : ((v0 :: vr) ++ tail).drop (str "RUN_COMMAND").length =
          tail := by
        rw [show (str "RUN_COMMAND").length = 11 from rfl, ← hlen,
          List.drop_left]
      have e1 : toLowerStr (str "RUN_COMMAND") = toLowerStr (v0 :: vr) := by
        rw [h]; decide
      rw [e1, e2]
    · rw [show (str "RUN_COMMAND").length = 11 from rfl, ← hlen,
        List.take_left, h]
      decide
  · obtain ⟨v0, vr, hveq, hv0⟩ := toLower_head_of_eq h hAc
    subst hveq
    have hlen : (v0 :: vr).length = 7 := by
      have hl := congrArg List.length h
      simp [toLowerStr] at hl
      rw [show (str "analyze").length = 7 from rfl] at hl
      simp only [List.length_cons]
      omega
    simp only [matchVerb, simpleVerbs, matchVerbAux]
    rw [if_neg (take_toLower_head_ne vr tail
      (str "CREATE_FILE").length (by decide)
      (toLowerStr (str "CREATE_FILE")) 'c' (by decide)
      (by rw [hv0]; decide))]
    rw [if_neg (take_toLower_head_ne vr tail
      (str "EDIT_FILE").length (by decide)
      (toLowerStr (str "EDIT_FILE")) 'e' (by decide)
      (by rw [hv0]; decide))]
    rw [if_neg (take_toLower_head_ne vr tail
      (str "RUN_COMMAND").length (by decide)
      (toLowerStr (str "RUN_COMMAND")) 'r' (by decide)
      (by rw [hv0]; decide))]
    rw [if_pos]
    · have e2 : ((v0 :: vr) ++ tail).drop (str "ANALYZE").length = tail := by
        rw [show (str "ANALYZE").length = 7 from rfl, ← hlen, List.drop_left]
      have e1 : toLowerStr (str "ANALYZE") = toLowerStr (v0 :: vr) := by
        rw [h]; decide
      rw [e1, e2]
    · rw [show (str "ANALYZE").length = 7 from rfl, ← hlen,
        List.take_left, h]
      decide

theorem drop_of_prefix_append {a t s : Str} (ht : a ++ t = s) :
    s.drop a.length = t := by
  rw [← ht, List.drop_left]

theorem matchBullet_sound {l r : Str} (h : matchBullet l = some r) :
    ∃ b w1, BulletForm b ∧ WSStr w1 ∧ l = b ++ (w1 ++ r) := by
  cases l with
  | nil => simp [matchBullet] at h
  | cons c l2 =>
    simp only [matchBullet] at h
    by_cases hd : c.isDigit = true
    · rw [if_pos hd] at h
      by_cases hdot :
          ((c :: l2).drop ((c :: l2).takeWhile Char.isDigit).length).head? =
            some '.'
      · rw [if_pos hdot] at h
        injection h with h2
        obtain ⟨t, ht⟩ :
            (c :: l2).takeWhile Char.isDigit <+: (c :: l2) :=
          List.takeWhile_prefix _
        have hdropt :
            (c :: l2).drop ((c :: l2).takeWhile Char.isDigit).length = t :=
          drop_of_prefix_append ht
        rw [hdropt] at hdot h2
        cases t with
        | nil => simp at hdot
        | cons c2 t2 =>
          simp at hdot
          subst hdot
          refine ⟨(c :: l2).takeWhile Char.isDigit ++ ['.'],
            t2.takeWhile isWS,
            BulletForm.digits _ ?_ (fun x hx => List.mem_takeWhile_imp hx),
            fun x hx => List.mem_takeWhile_imp hx, ?_⟩
          · simp [List.takeWhile_cons, hd]
          · rw [← h2]
            rw [show (('.' :: t2 : Str)).drop 1 = t2 from rfl,
              List.takeWhile_append_dropWhile, List.append_assoc]
            simpa using ht.symm
      · rw [if_neg hdot] at h; simp at h
    · rw [if_neg hd] at h
      by_cases hdash : c = '-'
      · rw [if_pos hdash] at h
        injection h with h2
        subst hdash
        refine ⟨['-'], l2.takeWhile isWS, BulletForm.dash,
          fun x hx => List.mem_takeWhile_imp hx, ?_⟩
        rw [← h2]
        rw [show (('-' :: l2 : Str)).drop 1 = l2 from rfl,
          List.takeWhile_append_dropWhile]
        rfl
      · rw [if_neg hdash] at h
        by_cases hstar : c = '*'
        · rw [if_pos hstar] at h
          injection h with h2
          subst hstar
          refine ⟨['*'], l2.takeWhile isWS, BulletForm.star,
            fun x hx => List.mem_takeWhile_imp hx, ?_⟩
          rw [← h2]
          rw [show (('*' :: l2 : Str)).drop 1 = l2 from rfl,
            List.takeWhile_append_dropWhile]
          rfl
        · rw [if_neg hstar] at h; simp at h

theorem matchBullet_complete {b w1 t : Str} (hb : BulletForm b) (hw : WSStr w1)
    (hth : t.dropWhile isWS = t) :
    matchBullet (b ++ (w1 ++ t)) = some t := by
  cases hb with
  | digits d hne hdig =>
    cases d with
    | nil => exact absurd rfl hne
    | cons d0 dr =>
      have hd0 : d0.isDigit = true := hdig d0 (by simp)
      have hassoc : (((d0 :: dr) ++ ['.']) ++ (w1 ++ t) : Str) =
          d0 :: (dr ++ '.' :: (w1 ++ t)) := by simp
      rw [hassoc]
      simp only [matchBullet]
      rw [if_pos hd0]
      have htw : (d0 :: (dr ++ '.' :: (w1 ++ t))).takeWhile Char.isDigit =
          d0 :: dr := by
        rw [← List.cons_append]
        exact takeWhile_append_break _ '.' _ hdig (by decide)
      have hdr : (d0 :: (dr ++ '.' :: (w1 ++ t))).drop
          ((d0 :: (dr ++ '.' :: (w1 ++ t))).takeWhile Char.isDigit).length =
          '.' :: (w1 ++ t) := by
        rw [htw, ← List.cons_append, List.drop_left]
      rw [hdr]
      rw [if_pos (show (('.' :: (w1 ++ t) : Str)).head? = some '.' from rfl)]
      rw [show (('.' :: (w1 ++ t) : Str)).drop 1 = w1 ++ t from rfl]
      rw [dropWhile_append_ws w1 t hw, hth]
  | dash =>
    rw [show ((['-'] ++ (w1 ++ t)) : Str) = '-' :: (w1 ++ t) from rfl]
    simp only [matchBullet]
    rw [if_neg (by decide), if_pos (by decide)]
    rw [show (('-' :: (w1 ++ t) : Str)).drop 1 = w1 ++ t from rfl]
    rw [dropWhile_append_ws w1 t hw, hth]
  | star =>
    rw [show ((['*'] ++ (w1 ++ t)) : Str) = '*' :: (w1 ++ t) from rfl]
    simp only [matchBullet]
    rw [if_neg (by decide), if_neg (by decide), if_pos (by decide)]
    rw [show (('*' :: (w1 ++ t) : Str)).drop 1 = w1 ++ t from rfl]
    rw [dropWhile_append_ws w1 t hw, hth]

theorem matchVerb_sound {l v r : Str} (h : matchVerb l = some (v, r)) :
    ∃ v2, VerbForm v2 ∧ l = v2 ++ r ∧ toLowerStr v2 = v := by
  simp only [matchVerb, simpleVerbs, matchVerbAux] at h
  by_cases h1 : toLowerStr (l.take (str "CREATE_FILE").length) =
      toLowerStr (str "CREATE_FILE")
  · rw [if_pos h1] at h
    injection h with h2
    rw [Prod.mk.injEq] at h2
    obtain ⟨ha, hb⟩ := h2
    refine ⟨l.take (str "CREATE_FILE").length, Or.inl (by rw [h1]; decide),
      ?_, h1.trans ha⟩
    rw [← hb, List.take_append_drop]
  · rw [if_neg h1] at h
    by_cases h2 : toLowerStr (l.take (str "EDIT_FILE").length) =
        toLowerStr (str "EDIT_FILE")
    · rw [if_pos h2] at h
      injection h with h3
      rw [Prod.mk.injEq] at h3
      obtain ⟨ha, hb⟩ := h3
      refine ⟨l.take (str "EDIT_FILE").length,
        Or.inr (Or.inl (by rw [h2]; decide)), ?_, h2.trans ha⟩
      rw [← hb, List.take_append_drop]
    · rw [if_neg h2] at h
      by_cases h3 : toLowerStr (l.take (str "RUN_COMMAND").length) =
          toLowerStr (str "RUN_COMMAND")
      · rw [if_pos h3] at h
        injection h with h4
        rw [Prod.mk.injEq] at h4
        obtain ⟨ha, hb⟩ := h4
        refine ⟨l.take (str "RUN_COMMAND").length,
          Or.inr (Or.inr (Or.inl (by rw [h3]; decide))), ?_, h3.trans ha⟩
        rw [← hb, List.take_append_drop]
      · rw [if_neg h3] at h
        by_cases h4 : toLowerStr (l.take (str "ANALYZE").length) =
            toLowerStr (str "ANALYZE")
        · rw [if_pos h4] at h
          injection h with h5
          rw [Prod.mk.injEq] at h5
          obtain ⟨ha, hb⟩ := h5
          refine ⟨l.take (str "ANALYZE").length,
            Or.inr (Or.inr (Or.inr (by rw [h4]; decide))), ?_, h4.trans ha⟩
          rw [← hb, List.take_append_drop]
        · rw [if_neg h4] at h
          simp at h

theorem restCapture_sound {s rest : Str} (h : restCapture s = some rest) :
    ∃ w2, WSStr w2 ∧ rest ≠ [] ∧ s = w2 ++ rest := by
  unfold restCapture at h
  by_cases h1 : (s.takeWhile isWS).length < s.length
  · rw [if_pos h1] at h
    injection h with h2
    obtain ⟨t, ht⟩ : s.takeWhile isWS <+: s := List.takeWhile_prefix _
    have hdropt : s.drop (s.takeWhile isWS).length = t :=
      drop_of_prefix_append ht
    refine ⟨s.takeWhile isWS, fun x hx => List.mem_takeWhile_imp hx, ?_, ?_⟩
    · rw [← h2]
      intro he
      have hlen := congrArg List.length he
      simp at hlen
      omega
    · rw [← h2, hdropt]
      exact ht.symm
  · rw [if_neg h1] at h
    by_cases h2 : 1 ≤ s.length
    · rw [if_pos h2] at h
      injection h with h3
      have hpre : s.takeWhile isWS <+: s := List.takeWhile_prefix _
      have hfull : s.takeWhile isWS = s :=
        hpre.eq_of_length (le_antisymm hpre.length_le (by omega))
      refine ⟨s.take (s.length - 1), ?_, ?_, ?_⟩
      · intro c hc
        have htp : s.take (s.length - 1) <+: s := List.take_prefix _ _
        have hcs : c ∈ s := htp.subset hc
        rw [← hfull] at hcs
        exact List.mem_takeWhile_imp hcs
      · rw [← h3]
        intro he
        have hlen := congrArg List.length he
        simp at hlen
        omega
      · rw [← h3]
        exact (List.take_append_drop _ s).symm
    · rw [if_neg h2] at h
      simp at h

theorem restCapture_isSome {s : Str} (h : s ≠ []) :
    (restCapture s).isSome = true := by
  unfold restCapture
  by_cases h1 : (s.takeWhile isWS).length < s.length
  · rw [if_pos h1]; rfl
  · rw [if_neg h1]
    have h2 : 1 ≤ s.length := by
      cases s with
      | nil => exact absurd rfl h
      | cons a as => simp
    rw [if_pos h2]; rfl

theorem parseSimpleLine_sound {l : Str} (hnl : '\n' ∉ l)
    (h : (parseSimpleLine l).isSome = true) : SpecMachineLineAnchored l := by
  unfold parseSimpleLine at h
  cases hb : matchBullet l with
  | none => rw [hb] at h; simp at h
  | some r1 =>
    rw [hb] at h
    dsimp only at h
    cases hv : matchVerb r1 with
    | none => rw [hv] at h; simp at h
    | some p =>
      obtain ⟨v, r2⟩ := p
      rw [hv] at h
      dsimp only at h
      by_cases hc : r2.head? = some ':'
      · rw [if_pos hc] at h
        cases hr : restCapture (r2.drop 1) with
        | none => rw [hr] at h; simp at h
        | some rest =>
          obtain ⟨b, w1, hbf, hw1, hleq⟩ := matchBullet_sound hb
          obtain ⟨v2, hvf, hr1eq, _⟩ := matchVerb_sound hv
          cases r2 with
          | nil => simp at hc
          | cons c0 r3 =>
            simp at hc
            subst hc
            obtain ⟨w2, hw2, hrne, hr3eq⟩ := restCapture_sound hr
            have hr3 : r3 = w2 ++ rest := hr3eq
            refine ⟨b, w1, v2, w2, rest, hbf, hw1, hvf, hw2, hrne, ?_, ?_⟩
            · intro hmem
              apply hnl
              rw [hleq, hr1eq]
              simp [hr3, List.mem_append, hmem]
            · rw [hleq, hr1eq]
              simp [hr3, List.append_assoc]
      · rw [if_neg hc] at h; simp at h

theorem parseSimpleLine_complete {l : Str} (h : SpecMachineLineAnchored l) :
    (parseSimpleLine l).isSome = true := by
  obtain ⟨b, w1, v, w2, rest, hbf, hw1, hvf, hw2, hrne, _, heq⟩ := h
  obtain ⟨v0, vr, hveq, hv0ws⟩ := verb_head_not_ws hvf
  have hth : ((v ++ (':' :: (w2 ++ rest))) : Str).dropWhile isWS =
      v ++ (':' :: (w2 ++ rest)) := by
    rw [hveq, List.cons_append]
    simp [List.dropWhile_cons, hv0ws]
  have hl2 : l = b ++ (w1 ++ (v ++ (':' :: (w2 ++ rest)))) := by
    rw [heq]; simp [List.append_assoc]
  rw [hl2]
  unfold parseSimpleLine
  rw [matchBullet_complete hbf hw1 hth]
  dsimp only
  rw [matchVerb_complete (':' :: (w2 ++ rest)) hvf]
  dsimp only
  rw [if_pos (show ((':' :: (w2 ++ rest)) : Str).head? = some ':' from rfl)]
  rw [show ((':' :: (w2 ++ rest)) : Str).drop 1 = w2 ++ rest from rfl]
  cases hrc : restCapture (w2 ++ rest) with
  | none =>
    have hs := restCapture_isSome
      (show (w2 ++ rest : Str) ≠ [] from by
        intro hx
        exact hrne (List.append_eq_nil.mp hx).2)
    rw [hrc] at hs
    simp at hs
  | some rest2 => simp

/-- C7 (counterexample): a machine-format line with leading whitespace
before the bullet matches the claimed grammar
^\s*(\d+\.|-|\*)\s*(VERB):\s*(.+)$ yet yields no step: every alternative of
the code's bullet group is anchored at the line start with no \s* before
it. -/
theorem c7_leading_whitespace_rejected :
    parseSimplePlanSteps (str "  1. CREATE_FILE: src/a.ts | entry point") =
      [] ∧
    SpecMachineLineFull (str "  1. CREATE_FILE: src/a.ts | entry point") := by
  constructor
  · decide
  · exact ⟨str "  ", str "1" ++ ['.'], str " ", str "CREATE_FILE", str " ",
      str "src/a.ts | entry point", by unfold WSStr; decide,
      BulletForm.digits (str "1") (by decide) (by decide),
      by unfold WSStr; decide, by unfold VerbForm; decide,
      by unfold WSStr; decide, by decide, by decide, by decide⟩

/-- C7 (amended): the simple machine-format parser accepts exactly the
lines matching (\d+\.|-|\*)\s*(CREATE_FILE|EDIT_FILE|RUN_COMMAND|ANALYZE):\s*(.+)
with the bullet at the very first character (lines with leading whitespace
are rejected), case-insensitive on the verb; the remainder splits on "|"
(preferred) or " - " into target and description, as the two concrete
instances of the claim show: both the "|" line and the " - " line yield the
single step {id 1, create_file, target src/a.ts, description entry point}. -/
theorem c7_simple_parser_grammar :
    (∀ l : Str, '\n' ∉ l →
      ((parseSimpleLine l).isSome = true ↔ SpecMachineLineAnchored l)) ∧
    parseSimplePlanSteps (str "1. CREATE_FILE: src/a.ts | entry point") =
      [⟨1, str "entry point", .create_file, some (str "src/a.ts"), none⟩] ∧
    parseSimplePlanSteps (str "1. CREATE_FILE: src/a.ts - entry point") =
      [⟨1, str "entry point", .create_file, some (str "src/a.ts"), none⟩] :=
  ⟨fun _ hnl => ⟨parseSimpleLine_sound hnl, parseSimpleLine_complete⟩,
    by decide, by decide⟩

/-- Witness for C7 (amended): the acceptance equivalence applied at a
concrete accepted line. -/
theorem c7_simple_parser_grammar_witness :
    SpecMachineLineAnchored (str "- EDIT_FILE: x") :=
  (c7_simple_parser_grammar.1 (str "- EDIT_FILE: x") (by decide)).mp
    (by decide)

/-- C6 (counterexample): the document c6doc has one "## Step 1:" section
(the whole document), its body holds exactly one fenced bash block whose
trimmed code splits into exactly the two non-comment non-blank lines
"npm install" and "npm test" — yet the parser emits exactly ONE run_command
step for the block, with the block's first line as target, not two steps. -/
theorem c6_pattern1_counterexample :
    findStepSections c6doc =
      [⟨0, 74, str "Setup environment",
        str "Intro text.\n```bash\nnpm install\nnpm test\n```\n"⟩] ∧
    codeFences (str "Intro text.\n```bash\nnpm install\nnpm test\n```\n") =
      [(str "bash", str "npm install\nnpm test\n")] ∧
    cmdLinesOf (trimStr (str "npm install\nnpm test\n")) =
      [str "npm install", str "npm test"] ∧
    parseTeddySpecSteps c6doc =
      [{ id := 1, description := str "Setup environment",
         type := StepType.run_command, target := some (str "npm install"),
         codeBlock := some (str "npm install\nnpm test") }] :=
  ⟨by decide, by decide, by decide, by decide⟩

/-- C6 (amended): for a document whose pattern-1 extraction finds exactly
one step section, whose body holds exactly one fenced code block, that
block being a bash/sh/shell block whose trimmed code has exactly two
(non-blank, non-comment) lines, pattern 1 of parseTeddySpecSteps yields
exactly ONE run_command step for the block — its target the FIRST line of
the trimmed code, its codeBlock the whole trimmed code — never one step per
command line. -/
theorem c6_step_section_bash_single_step
    (content : Str) (sec : StepSection) (lang raw l1 l2 : Str)
    (hsecs : findStepSections content = [sec])
    (hfences : codeFences sec.body = [(lang, raw)])
    (hlang : isBashLang (toLowerStr lang) = true)
    (hlines : splitOnNl (trimStr raw) = [l1, l2])
    (hne1 : trimStr l1 ≠ []) (hne2 : trimStr l2 ≠ [])
    (hc1 : isPrefixOfB (str "#") (trimStr l1) = false)
    (hc2 : isPrefixOfB (str "#") (trimStr l2) = false) :
    (parseTeddyPattern1 content).1 =
      [{ id := 1, description := trimStr sec.title, type := .run_command,
         target := some l1, codeBlock := some (trimStr raw) }] := by
  unfold parseTeddyPattern1
  rw [hsecs]
  simp [teddyPattern1Aux, sectionSteps, hfences, p1BlocksFold,
    p1StepOfBlock, hlang, hlines]

/-- Witness for C6 (amended): the single-step conclusion at the concrete
document c6doc. -/
theorem c6_step_section_bash_single_step_witness :
    (parseTeddyPattern1 c6doc).1 =
      [{ id := 1, description := str "Setup environment",
         type := StepType.run_command, target := some (str "npm install"),
         codeBlock := some (str "npm install\nnpm test") }] :=
  (c6_step_section_bash_single_step c6doc
    ⟨0, 74, str "Setup environment",
      str "Intro text.\n```bash\nnpm install\nnpm test\n```\n"⟩
    (str "bash") (str "npm install\nnpm test\n")
    (str "npm install") (str "npm test")
    (by decide) (by decide) (by decide) (by decide)
    (by decide) (by decide) (by decide) (by decide)).trans (by decide)

/-- C10: detectPlanDocument is consistent on every input: either it reports
a plan document with a nonempty step list and a teddy_spec or simple
format, or it reports no plan document with an empty step list and no
format — it never reports a plan document with zero parsed steps. -/
theorem c10_detect_plan_consistent (content : Str) :
    ((detectPlanDocument content).isPlanDocument = true ∧
      (detectPlanDocument content).steps ≠ [] ∧
      ((detectPlanDocument content).format = some PlanFormat.teddy_spec ∨
        (detectPlanDocument content).format = some PlanFormat.simple)) ∨
    ((detectPlanDocument content).isPlanDocument = false ∧
      (detectPlanDocument content).steps = [] ∧
      (detectPlanDocument content).format = none) := by
  unfold detectPlanDocument
  split
  · exact Or.inr ⟨rfl, rfl, rfl⟩
  · dsimp only
    split
    · split
      · rename_i h
        exact Or.inl ⟨rfl, List.ne_nil_of_length_pos h, Or.inl rfl⟩
      · split
        · split
          · rename_i h
            exact Or.inl ⟨rfl, List.ne_nil_of_length_pos h, Or.inr rfl⟩
          · exact Or.inr ⟨rfl, rfl, rfl⟩
        · exact Or.inr ⟨rfl, rfl, rfl⟩
    · split
      · split
        · rename_i h
          exact Or.inl ⟨rfl, List.ne_nil_of_length_pos h, Or.inr rfl⟩
        · exact Or.inr ⟨rfl, rfl, rfl⟩
      · exact Or.inr ⟨rfl, rfl, rfl⟩

/-- Witness for C10: the consistency disjunction applied at a concrete
short input, which the detector rejects with empty steps and no format. -/
theorem c10_detect_plan_consistent_witness :
    (detectPlanDocument (str "hi")).isPlanDocument = false ∧
    (detectPlanDocument (str "hi")).steps = [] ∧
    (detectPlanDocument (str "hi")).format = none := by
  rcases c10_detect_plan_consistent (str "hi") with h | h
  · exact absurd h.1 (by decide)
  · exact h

end Teddy
